import Mathlib

/-!
# Verification of the CCC transcript pruning core

Shallow embedding of the transcript pruning engine of the `ccc` repository:
`pruneSessionLines` (src/index.ts) and `detectBoundaries` / `pruneToBoundary`
(src/boundary-detector.ts).

A transcript line is modelled by the observations the code makes of it: its
raw character content (used for boundary-marker search and byte accounting)
and the result of the best-effort `JSON.parse` (used for classification,
reference tracking and the usage-counter rewrite).  `JSON.parse` failure is
modelled by `parsed = none`.  JavaScript `undefined` results of out-of-range
array reads are modelled by `Option`, and the JS comparison `i >= undefined`
(which is `false`) by `idxGEb`.
-/

namespace CCC

/-- A content element of an `assistant` record's `content` array.
`toolUse id` models an element with `type == "tool_use"` and the given
`id` field (`none` when absent); any other element is `other`. -/
inductive ContentItem where
  | toolUse (id : Option String)
  | other
deriving DecidableEq, Repr

/-- The `content` field of a parsed record: absent, a string, or an array. -/
inductive JsonContent where
  | absent
  | str (s : String)
  | items (l : List ContentItem)
deriving DecidableEq, Repr

/-- The fields of a parsed JSON record that the pruning core inspects.
`cacheRead` is the value found at `(obj.usage || obj.message?.usage)
?.cache_read_input_tokens` (`none` when that lookup yields no number),
`command` is `obj.parameters?.command`. -/
structure JsonObj where
  type : Option String
  content : JsonContent
  tool_use_id : Option String
  tool_name : Option String
  command : Option String
  cacheRead : Option Int
deriving DecidableEq, Repr

/-- A transcript line: raw characters plus the result of `JSON.parse`. -/
structure Line where
  raw : String
  parsed : Option JsonObj
deriving DecidableEq, Repr

/-- JS string truthiness for an optional string field (`""` is falsy). -/
def truthy : Option String → Bool
  | none => false
  | some s => s ≠ ""

/-- `MSG_TYPES = new Set(["user", "assistant", "system"])`. -/
def MSG_TYPES : List String := ["user", "assistant", "system"]

/-- `JSON.parse(ln).type` with parse failure giving `none`. -/
def lineType (ln : Line) : Option String := ln.parsed.bind (·.type)

/-- `MSG_TYPES.has(try JSON.parse(ln).type catch "")`. -/
def isMsg (ln : Line) : Bool :=
  match lineType ln with
  | some t => MSG_TYPES.contains t
  | none => false

/-- Whether the line parses as a record with `type === "assistant"`. -/
def isAssistant (ln : Line) : Bool := lineType ln == some "assistant"

/-- `obj.tool_use_id` of the parsed record, if any. -/
def toolUseIdOf (ln : Line) : Option String := ln.parsed.bind (·.tool_use_id)

/-- The `tool_use` ids harvested from an assistant record's `content` array:
elements with `item.type === "tool_use" && item.id` contribute `item.id`. -/
def toolUseIds (ln : Line) : List String :=
  match ln.parsed with
  | some o =>
    match o.content with
    | .items its =>
      its.filterMap fun it =>
        match it with
        | .toolUse (some s) => if s = "" then none else some s
        | _ => none
    | _ => []
  | none => []

/-- `tool_use_id` of a line when it is a `tool_result` record carrying a
truthy `tool_use_id` (the only case the orphan filter acts on). -/
def trTruthyId (ln : Line) : Option String :=
  match ln.parsed with
  | some o =>
    if o.type = some "tool_result" then
      match o.tool_use_id with
      | some s => if s = "" then none else some s
      | none => none
    else none
  | none => none

/-- The orphan filter of both pruners:
`shouldKeep = true` unless the line parses as a `tool_result` with a truthy
`tool_use_id`, in which case it is kept iff the id is in the surviving set. -/
def shouldKeepLine (S : List String) (ln : Line) : Bool :=
  match ln.parsed with
  | none => true
  | some o =>
    if o.type = some "tool_result" then
      match o.tool_use_id with
      | none => true
      | some s => if s = "" then true else S.contains s
    else true

/-- `usageObj?.cache_read_input_tokens && usageObj.cache_read_input_tokens > 0`. -/
def cacheBearing (ln : Line) : Bool :=
  match ln.parsed with
  | some o =>
    match o.cacheRead with
    | some v => 0 < v
    | none => false
  | none => false

/-- `(obj.usage || obj.message?.usage)?.cache_read_input_tokens`. -/
def cacheReadOf (ln : Line) : Option Int := ln.parsed.bind (·.cacheRead)

/-- Rendering of an optional string field for `serializeObj`. -/
def optFld : Option String → String
  | none => "null"
  | some s => "\"" ++ s ++ "\""

/-- Rendering of the optional numeric field for `serializeObj`. -/
def intFld : Option Int → String
  | none => "null"
  | some v => toString v

/-- Rendering of a content element for `serializeObj`. -/
def itemFld : ContentItem → String
  | .toolUse none => "tool_use:null"
  | .toolUse (some s) => "tool_use:" ++ s
  | .other => "other"

/-- Rendering of the `content` field for `serializeObj`. -/
def contentFld : JsonContent → String
  | .absent => "null"
  | .str s => "\"" ++ s ++ "\""
  | .items l => "[" ++ (l.map itemFld).foldl (· ++ ·) "" ++ "]"

/-- A printer standing in for `JSON.stringify` on the modelled fields; the
spec leaves the exact serialization unconstrained ("the implementer may emit
any valid JSON serialization equivalent to the modified object"), only the
parsed content matters downstream. -/
def serializeObj (o : JsonObj) : String :=
  "\x7b" ++ optFld o.type ++ "," ++ contentFld o.content ++ "," ++
    optFld o.tool_use_id ++ "," ++ optFld o.tool_name ++ "," ++
    optFld o.command ++ "," ++ intFld o.cacheRead ++ "\x7d"

/-- Rewrite one line: set `cache_read_input_tokens` to `0` and re-serialize
(`JSON.stringify(obj)`); a line that does not parse is returned unchanged
(the `catch` branch of the code). -/
def zeroLine (ln : Line) : Line :=
  match ln.parsed with
  | some o =>
    let o2 := { o with cacheRead := some 0 }
    ⟨serializeObj o2, some o2⟩
  | none => ln

/-- Index of the last line bearing a positive `cache_read_input_tokens`
(`lastNonZeroCacheLineIndex`, `none` standing for the sentinel `-1`).
`i` is the index of the first element of the list argument. -/
def lastCacheIdx (i : Nat) : List Line → Option Nat
  | [] => none
  | ln :: rest =>
    match lastCacheIdx (i + 1) rest with
    | some j => some j
    | none => if cacheBearing ln then some (i : Nat) else none

/-- Apply `zeroLine` at absolute index `j`; `i` is the index of the first
element of the list argument. -/
def zeroAt (j : Nat) : Nat → List Line → List Line
  | _, [] => []
  | i, ln :: rest => (if i = j then zeroLine ln else ln) :: zeroAt j (i + 1) rest

/-- The `processedLines` of both pruners: the last cache-bearing line (if
any) re-serialized with its counter zeroed, every other line unchanged. -/
def zeroLastCache (lines : List Line) : List Line :=
  match lastCacheIdx 0 lines with
  | none => lines
  | some j => zeroAt j 0 lines

/-- The JS comparison `idx >= cutFrom` where `cutFrom` may be `undefined`
(an out-of-range array read): `x >= undefined` is `false`. -/
def idxGEb (i : Nat) : Option Nat → Bool
  | some c => c ≤ i
  | none => false

/-- Pass collecting `keptToolUseIds`: ids from the `content` arrays of
`assistant` records at index `≠ 0` satisfying `idx >= cut`.  `i` is the
index of the first element of the list argument. -/
def harvestIds (cut : Option Nat) : Nat → List Line → List String
  | _, [] => []
  | i, ln :: rest =>
    (if i != 0 && idxGEb i cut && isAssistant ln then toolUseIds ln else [])
      ++ harvestIds cut (i + 1) rest

/-- Output-building pass of `pruneSessionLines` (lines at index ≥ 1):
message records are kept iff `idx >= cutFrom` (dropped otherwise);
every other line is kept iff it passes the orphan filter, at any index.
Returns (output lines, kept, dropped). -/
def pass3 (cut : Option Nat) (S : List String) : Nat → List Line → List Line × Nat × Nat
  | _, [] => ([], 0, 0)
  | i, ln :: rest =>
    let r := pass3 cut S (i + 1) rest
    if isMsg ln then
      if idxGEb i cut then (ln :: r.1, r.2.1 + 1, r.2.2)
      else (r.1, r.2.1, r.2.2 + 1)
    else
      if shouldKeepLine S ln then (ln :: r.1, r.2.1, r.2.2) else r

/-- Output-building pass of `pruneToBoundary` (lines at index ≥ 1): lines
at index `≥ b` are kept as in `pass3`; lines before the boundary are all
excluded, message records among them counting as dropped. -/
def passB (b : Nat) (S : List String) : Nat → List Line → List Line × Nat × Nat
  | _, [] => ([], 0, 0)
  | i, ln :: rest =>
    let r := passB b S (i + 1) rest
    if b ≤ i then
      if isMsg ln then (ln :: r.1, r.2.1 + 1, r.2.2)
      else if shouldKeepLine S ln then (ln :: r.1, r.2.1, r.2.2) else r
    else
      if isMsg ln then (r.1, r.2.1, r.2.2 + 1) else r

/-- Indices of `assistant` records, skipping index 0
(`assistantIndexes` of pass 1 of `pruneSessionLines`). -/
def assistantIdxs : Nat → List Line → List Nat
  | _, [] => []
  | i, ln :: rest =>
    (if i != 0 && isAssistant ln then [i] else []) ++ assistantIdxs (i + 1) rest

/-- The cutoff of `pruneSessionLines`:
`cutFrom = assistantIndexes[assistantIndexes.length - keepNSafe]` when
`assistantIndexes.length > keepNSafe`, else `0`.  The out-of-range read at
`keepNSafe = 0` yields JS `undefined`, modelled by `none`. -/
def cutFromOf (lines : List Line) (keepNSafe : Nat) : Option Nat :=
  let a := assistantIdxs 0 lines
  if a.length > keepNSafe then a.get? (a.length - keepNSafe) else some 0

/-- Result record of `pruneSessionLines`. -/
structure PruneResult where
  outLines : List Line
  kept : Nat
  dropped : Nat
  assistantCount : Nat
deriving DecidableEq, Repr

/-- `pruneSessionLines(lines, keepN)` (src/index.ts): keep-by-assistant-count
pruning.  `keepN` is clamped below by 0 (`Math.max(0, keepN)`). -/
def pruneSessionLines (lines : List Line) (keepN : Int) : PruneResult :=
  let cut := cutFromOf lines keepN.toNat
  let S := harvestIds cut 0 lines
  let processed := zeroLastCache lines
  let r := pass3 cut S 1 processed.tail
  let headList : List Line := match lines with | [] => [] | h :: _ => [h]
  ⟨headList ++ r.1, r.2.1, r.2.2, (assistantIdxs 0 lines).length⟩

/-- Result record of `pruneToBoundary`. -/
structure BPruneResult where
  outLines : List Line
  kept : Nat
  dropped : Nat
deriving DecidableEq, Repr

/-- `pruneToBoundary(lines, boundaryLineNumber)` (src/boundary-detector.ts):
keep-from-boundary pruning. -/
def pruneToBoundary (lines : List Line) (b : Nat) : BPruneResult :=
  let S := harvestIds (some b) 0 lines
  let processed := zeroLastCache lines
  let r := passB b S 1 processed.tail
  let headList : List Line := match lines with | [] => [] | h :: _ => [h]
  ⟨headList ++ r.1, r.2.1, r.2.2⟩

/-! ## Boundary detector (`detectBoundaries`, src/boundary-detector.ts) -/

/-- Substring test on character lists (`String.prototype.includes`). -/
def subSearch (pat : List Char) : List Char → Bool
  | [] => pat.isEmpty
  | c :: rest => pat.isPrefixOf (c :: rest) || subSearch pat rest

/-- `s.includes(pat)`. -/
def strContains (s pat : String) : Bool := subSearch pat.data s.data

/-- The literal boundary marker. -/
def MARKER : String := "===INTENT_BOUNDARY==="

/-- Drop through `l` until just after the first occurrence of `pat`;
`none` when `pat` does not occur. -/
def dropThrough (pat : List Char) : List Char → Option (List Char)
  | [] => if pat.isEmpty then some [] else none
  | c :: rest =>
    if pat.isPrefixOf (c :: rest) then some ((c :: rest).drop pat.length)
    else dropThrough pat rest

/-- Model of `line.match(/===INTENT_BOUNDARY=== ([^|]+)(?:\s*\|\s*(.+))?/)`:
returns `(timestamp, intent)` — the text after the marker-and-space up to an
optional `|` (trimmed), and the trimmed text after `|` when present and
non-empty.  `none` when the marker-with-trailing-space pattern fails to
match at all. -/
def parseBoundaryLabel (line : String) : Option (String × Option String) :=
  match dropThrough (MARKER ++ " ").data line.data with
  | none => none
  | some rest =>
    let before := rest.takeWhile (· ≠ '|')
    let after := rest.dropWhile (· ≠ '|')
    if before.isEmpty then none
    else
      match after with
      | [] => some ((String.mk before).trim, none)
      | _ :: tl =>
        if tl.isEmpty then some ((String.mk before).trim, none)
        else some ((String.mk before).trim, some (String.mk tl).trim)

/-- A boundary produced by `detectBoundaries`. -/
structure Boundary where
  lineNumber : Nat
  btype : String
  description : String
  timestamp : Option String
  retentionPercentage : Int
  characterCount : Int
  intent : Option String
deriving DecidableEq, Repr

/-- `Math.round` for the non-negative values arising here: `⌊q + 1/2⌋`. -/
def jsRound (q : ℚ) : Int := ⌊q + 1 / 2⌋

/-- `retentionPercentage = Math.round(((total - chars) / total) * 100)`. -/
def retentionOf (total chars : Nat) : Int :=
  jsRound ((((total : ℚ) - (chars : ℚ)) / (total : ℚ)) * 100)

/-- Length of `lines.join('\n')`. -/
def joinLen : List Line → Nat
  | [] => 0
  | [ln] => ln.raw.length
  | ln :: rest@(_ :: _) => ln.raw.length + 1 + joinLen rest

/-- `linePositions[i]`: byte offset of line `i`
(`offset[i+1] = offset[i] + len(lines[i]) + 1`, `offset[0] = 0`). -/
def offsetAt (l : List Line) (i : Nat) : Nat :=
  ((l.take i).map (fun ln => ln.raw.length + 1)).sum

/-- The explicit-marker boundary emitted at index `i`, offset `chars`. -/
def mkIntent (total : Nat) (i : Nat) (chars : Nat) (raw : String) : Boundary :=
  match parseBoundaryLabel raw with
  | some (ts, some it) =>
    ⟨i, "intent", it, some ts, retentionOf total chars, (total : Int) - (chars : Int), some it⟩
  | some (ts, none) =>
    ⟨i, "intent", "Boundary marker", some ts, retentionOf total chars,
      (total : Int) - (chars : Int), none⟩
  | none =>
    ⟨i, "intent", "Boundary marker", none, retentionOf total chars,
      (total : Int) - (chars : Int), none⟩

/-- Scan for `===INTENT_BOUNDARY===` marker lines.  `i` and `pos` are the
index and byte offset of the first element of the list argument. -/
def intentScan (total : Nat) : Nat → Nat → List Line → List Boundary
  | _, _, [] => []
  | i, pos, ln :: rest =>
    (if strContains ln.raw MARKER then [mkIntent total i pos ln.raw] else [])
      ++ intentScan total (i + 1) (pos + ln.raw.length + 1) rest

/-- Capture of `/git commit -m ["']([^"']+)["']/` starting exactly at the
given characters: after the literal `git commit -m ` and an opening quote,
the non-empty run of non-quote characters, provided a closing quote
follows. -/
def gitCommitAt (l : List Char) : Option String :=
  if ("git commit -m ".data).isPrefixOf l then
    match l.drop ("git commit -m ".length) with
    | q :: rest =>
      if q = '"' || q = '\'' then
        let cap := rest.takeWhile (fun c => c ≠ '"' && c ≠ '\'')
        match rest.drop cap.length with
        | c :: _ =>
          if (c = '"' || c = '\'') && !cap.isEmpty then some (String.mk cap) else none
        | [] => none
      else none
    | [] => none
  else none

/-- Search `/git commit -m ["']([^"']+)["']/` anywhere in the string. -/
def gitCommitMsg : List Char → Option String
  | [] => none
  | c :: rest =>
    match gitCommitAt (c :: rest) with
    | some m => some m
    | none => gitCommitMsg rest

/-- Whether a prior line is a `tool_call` with `tool_name === 'bash'` whose
`parameters?.command` matches the git-commit regex; yields the capture. -/
def commitMsgOfLine (ln : Line) : Option String :=
  match ln.parsed with
  | some o =>
    if o.type = some "tool_call" ∧ o.tool_name = some "bash" then
      gitCommitMsg (o.command.getD "").data
    else none
  | none => none

/-- The backward walk from a successful-commit result: nearest prior line
with a matching git-commit command.  `prior` holds the earlier lines,
nearest first. -/
def findCommitMsg : List Line → Option String
  | [] => none
  | ln :: rest =>
    match commitMsgOfLine ln with
    | some m => some m
    | none => findCommitMsg rest

/-- Whether the line is a successful-commit `tool_result`: parses with
`type === 'tool_result'`, `tool_name === 'bash'`, truthy string `content`
containing one of the success substrings. -/
def isCommitResult (ln : Line) : Bool :=
  match ln.parsed with
  | some o =>
    (o.type == some "tool_result") && (o.tool_name == some "bash") &&
      (match o.content with
       | .str s =>
         strContains s "files changed" || strContains s "insertions" ||
           strContains s "deletions"
       | _ => false)
  | none => false

/-- The derived-commit boundary emitted at index `i`, offset `chars`. -/
def mkGit (total : Nat) (i : Nat) (chars : Nat) (msg : Option String) : Boundary :=
  ⟨i, "git_commit",
    (match msg with | some m => "Git commit: " ++ m | none => "Successful commit"),
    none, retentionOf total chars, (total : Int) - (chars : Int), none⟩

/-- Scan for successful-commit boundaries.  `i`, `pos` as in `intentScan`;
`prior` holds the already-scanned lines, nearest first. -/
def gitScan (total : Nat) : Nat → Nat → List Line → List Line → List Boundary
  | _, _, _, [] => []
  | i, pos, prior, ln :: rest =>
    (if isCommitResult ln then [mkGit total i pos (findCommitMsg prior)] else [])
      ++ gitScan total (i + 1) (pos + ln.raw.length + 1) (ln :: prior) rest

/-- Stable insert for the descending-`lineNumber` sort
(`boundaries.sort((a, b) => b.lineNumber - a.lineNumber)`). -/
def insertDesc (x : Boundary) : List Boundary → List Boundary
  | [] => [x]
  | y :: ys =>
    if x.lineNumber < y.lineNumber then y :: insertDesc x ys else x :: y :: ys

/-- Stable sort by descending `lineNumber`. -/
def sortDesc : List Boundary → List Boundary
  | [] => []
  | x :: xs => insertDesc x (sortDesc xs)

/-- Result of `detectBoundaries`. -/
structure BoundaryAnalysis where
  boundaries : List Boundary
  totalCharacters : Nat
deriving DecidableEq, Repr

/-- `detectBoundaries(lines)` (src/boundary-detector.ts). -/
def detectBoundaries (lines : List Line) : BoundaryAnalysis :=
  let total := joinLen lines
  ⟨sortDesc (intentScan total 0 0 lines ++ gitScan total 0 0 [] lines), total⟩

/-! ## Helper lemmas -/

theorem zeroLine_parsed (ln : Line) :
    (zeroLine ln).parsed = ln.parsed.map (fun o => { o with cacheRead := some 0 }) := by
  cases h : ln.parsed <;> simp [zeroLine, h]

theorem zeroLine_lineType (ln : Line) : lineType (zeroLine ln) = lineType ln := by
  cases h : ln.parsed <;> simp [lineType, zeroLine_parsed, h]

theorem zeroLine_isMsg (ln : Line) : isMsg (zeroLine ln) = isMsg ln := by
  simp [isMsg, zeroLine_lineType]

theorem zeroLine_isAssistant (ln : Line) : isAssistant (zeroLine ln) = isAssistant ln := by
  simp [isAssistant, zeroLine_lineType]

theorem zeroLine_toolUseIds (ln : Line) : toolUseIds (zeroLine ln) = toolUseIds ln := by
  cases h : ln.parsed <;> simp [toolUseIds, zeroLine_parsed, h]

theorem zeroLine_trTruthyId (ln : Line) : trTruthyId (zeroLine ln) = trTruthyId ln := by
  cases h : ln.parsed <;> simp [trTruthyId, zeroLine_parsed, h]

theorem zeroLine_shouldKeep (S : List String) (ln : Line) :
    shouldKeepLine S (zeroLine ln) = shouldKeepLine S ln := by
  cases h : ln.parsed <;> simp [shouldKeepLine, zeroLine_parsed, h]

theorem zeroLine_cacheRead (ln : Line) (h : ln.parsed.isSome) :
    cacheReadOf (zeroLine ln) = some 0 := by
  cases hp : ln.parsed with
  | none => rw [hp] at h; simp at h
  | some o => simp [cacheReadOf, zeroLine_parsed, hp]

theorem tail_getElem (l : List Line) (k : Nat) : l.tail[k]? = l[k + 1]? := by
  cases l <;> simp

theorem zeroAt_getElem (l : List Line) (j i k : Nat) :
    (zeroAt j i l)[k]? = if i + k = j then (l[k]?).map zeroLine else l[k]? := by
  induction l generalizing i k with
  | nil => simp [zeroAt]
  | cons x xs ih =>
    cases k with
    | zero =>
      simp only [zeroAt, List.getElem?_cons_zero, Nat.add_zero]
      by_cases h : i = j <;> simp [h]
    | succ k =>
      simp only [zeroAt, List.getElem?_cons_succ, ih (i + 1) k]
      have : i + 1 + k = i + (k + 1) := by omega
      rw [this]

theorem zeroLastCache_getElem (lines : List Line) (k : Nat) (ln : Line)
    (h : lines[k]? = some ln) :
    ∃ ln', (zeroLastCache lines)[k]? = some ln' ∧ (ln' = ln ∨ ln' = zeroLine ln) := by
  unfold zeroLastCache
  cases hj : lastCacheIdx 0 lines with
  | none => exact ⟨ln, h, Or.inl rfl⟩
  | some j =>
    rw [zeroAt_getElem]
    simp only [Nat.zero_add]
    by_cases hk : k = j
    · exact ⟨zeroLine ln, by simp [hk, hk ▸ h], Or.inr rfl⟩
    · exact ⟨ln, by simp [hk, h], Or.inl rfl⟩

theorem zeroAt_countP (l : List Line) (j i : Nat) :
    (zeroAt j i l).countP isMsg = l.countP isMsg := by
  induction l generalizing i with
  | nil => simp [zeroAt]
  | cons x xs ih =>
    simp only [zeroAt, List.countP_cons, ih (i + 1)]
    by_cases h : i = j <;> simp [h, zeroLine_isMsg]

theorem lastCacheIdx_spec (l : List Line) (i j : Nat) (h : lastCacheIdx i l = some j) :
    ∃ k ln, l[k]? = some ln ∧ i + k = j ∧ cacheBearing ln = true := by
  induction l generalizing i with
  | nil => simp [lastCacheIdx] at h
  | cons x xs ih =>
    simp only [lastCacheIdx] at h
    cases hr : lastCacheIdx (i + 1) xs with
    | some j' =>
      rw [hr] at h
      obtain ⟨k, ln, hk, hij, hb⟩ := ih (i + 1) (h ▸ hr)
      exact ⟨k + 1, ln, by simpa using hk, by omega, hb⟩
    | none =>
      rw [hr] at h
      by_cases hb : cacheBearing x
      · refine ⟨0, x, by simp, ?_, hb⟩
        simp [hb] at h
        omega
      · simp [hb] at h

theorem lastCacheIdx_of_all_not (l : List Line) (i : Nat)
    (h : ∀ ln ∈ l, cacheBearing ln = false) : lastCacheIdx i l = none := by
  induction l generalizing i with
  | nil => rfl
  | cons x xs ih =>
    simp only [lastCacheIdx]
    rw [ih (i + 1) (fun ln hln => h ln (List.mem_cons_of_mem _ hln))]
    simp [h x (List.mem_cons_self _ _)]

theorem zeroLastCache_of_all_not (lines : List Line)
    (h : ∀ ln ∈ lines, cacheBearing ln = false) : zeroLastCache lines = lines := by
  unfold zeroLastCache
  rw [lastCacheIdx_of_all_not lines 0 h]

theorem trTruthyId_not_msg (ln : Line) (s : String) (h : trTruthyId ln = some s) :
    isMsg ln = false := by
  cases hp : ln.parsed with
  | none => simp [trTruthyId, hp] at h
  | some o =>
    simp only [trTruthyId, hp] at h
    by_cases ht : o.type = some "tool_result"
    · simp [isMsg, lineType, hp, Option.bind, ht, MSG_TYPES]
    · simp [ht] at h

theorem shouldKeep_of_trId (S : List String) (ln : Line)
    (h : ∀ s, trTruthyId ln = some s → S.contains s = true) :
    shouldKeepLine S ln = true := by
  cases hp : ln.parsed with
  | none => simp [shouldKeepLine, hp]
  | some o =>
    simp only [shouldKeepLine, hp]
    by_cases ht : o.type = some "tool_result"
    · simp only [if_pos ht]
      cases hi : o.tool_use_id with
      | none => rfl
      | some s =>
        by_cases hs : s = ""
        · simp [hs]
        · simpa [hs] using h s (by simp [trTruthyId, hp, ht, hi, hs])
    · simp [ht]

theorem trId_shouldKeep (S : List String) (ln : Line) (s : String)
    (hid : trTruthyId ln = some s) (h : shouldKeepLine S ln = true) :
    S.contains s = true := by
  cases hp : ln.parsed with
  | none => simp [trTruthyId, hp] at hid
  | some o =>
    simp only [trTruthyId, hp] at hid
    by_cases ht : o.type = some "tool_result"
    · simp only [if_pos ht] at hid
      cases hi : o.tool_use_id with
      | none => simp [hi] at hid
      | some s' =>
        rw [hi] at hid
        by_cases hs : s' = ""
        · simp [hs] at hid
        · simp only [if_neg hs] at hid
          simp only [shouldKeepLine, hp, if_pos ht, hi, if_neg hs] at h
          exact (Option.some_inj.mp hid) ▸ h
    · simp [ht] at hid

theorem pass3_mem_origin (l : List Line) (cut : Option Nat) (S : List String) :
    ∀ (i : Nat) (ln : Line), ln ∈ (pass3 cut S i l).1 → ∃ k : Nat, l[k]? = some ln := by
  induction l with
  | nil => intro i ln h; simp [pass3] at h
  | cons x xs ih =>
    intro i ln h
    by_cases hm : isMsg x = true
    · by_cases hc : idxGEb i cut = true
      · simp only [pass3, hm, hc, if_true] at h
        rcases List.mem_cons.mp h with h1 | h2
        · exact ⟨0, by simp [h1]⟩
        · obtain ⟨k, hk⟩ := ih (i + 1) ln h2
          exact ⟨k + 1, by simpa using hk⟩
      · simp only [pass3, hm, if_true, hc, if_false] at h
        obtain ⟨k, hk⟩ := ih (i + 1) ln h
        exact ⟨k + 1, by simpa using hk⟩
    · by_cases hs : shouldKeepLine S x = true
      · simp only [pass3, hm, if_false, hs, if_true] at h
        rcases List.mem_cons.mp h with h1 | h2
        · exact ⟨0, by simp [h1]⟩
        · obtain ⟨k, hk⟩ := ih (i + 1) ln h2
          exact ⟨k + 1, by simpa using hk⟩
      · simp only [pass3, hm, if_false, hs] at h
        obtain ⟨k, hk⟩ := ih (i + 1) ln h
        exact ⟨k + 1, by simpa using hk⟩

theorem pass3_mem_trId (l : List Line) (cut : Option Nat) (S : List String) :
    ∀ (i : Nat) (ln : Line) (s : String), ln ∈ (pass3 cut S i l).1 → trTruthyId ln = some s → S.contains s = true := by
  induction l with
  | nil => intro i ln s h; simp [pass3] at h
  | cons x xs ih =>
    intro i ln s h hid
    by_cases hm : isMsg x = true
    · by_cases hc : idxGEb i cut = true
      · simp only [pass3, hm, hc, if_true] at h
        rcases List.mem_cons.mp h with h1 | h2
        · rw [h1] at hid
          rw [trTruthyId_not_msg x s hid] at hm
          exact absurd hm (by simp)
        · exact ih (i + 1) ln s h2 hid
      · simp only [pass3, hm, if_true, hc, if_false] at h
        exact ih (i + 1) ln s h hid
    · by_cases hs : shouldKeepLine S x = true
      · simp only [pass3, hm, if_false, hs, if_true] at h
        rcases List.mem_cons.mp h with h1 | h2
        · exact trId_shouldKeep S x s (h1 ▸ hid) hs
        · exact ih (i + 1) ln s h2 hid
      · simp only [pass3, hm, if_false, hs] at h
        exact ih (i + 1) ln s h hid

theorem pass3_keep_msg (l : List Line) (cut : Option Nat) (S : List String) :
    ∀ (i k : Nat) (ln : Line), l[k]? = some ln → isMsg ln = true → idxGEb (i + k) cut = true →
      ln ∈ (pass3 cut S i l).1 := by
  induction l with
  | nil => intro i k ln h; simp at h
  | cons x xs ih =>
    intro i k ln h hm hc
    cases k with
    | zero =>
      simp only [List.getElem?_cons_zero, Option.some_inj] at h
      subst h
      simp only [Nat.add_zero] at hc
      simp [pass3, hm, hc]
    | succ k =>
      simp only [List.getElem?_cons_succ] at h
      have hrec := ih (i + 1) k ln h hm (by rw [show i + 1 + k = i + (k + 1) by omega]; exact hc)
      by_cases hmx : isMsg x = true
      · by_cases hcx : idxGEb i cut = true
        · simp only [pass3, hmx, hcx, if_true]
          exact List.mem_cons_of_mem _ hrec
        · simpa only [pass3, hmx, if_true, hcx, if_false] using hrec
      · by_cases hsx : shouldKeepLine S x = true
        · simp only [pass3, hmx, if_false, hsx, if_true]
          exact List.mem_cons_of_mem _ hrec
        · simpa only [pass3, hmx, if_false, hsx] using hrec

theorem pass3_keep_nonmsg (l : List Line) (cut : Option Nat) (S : List String) :
    ∀ (i k : Nat) (ln : Line), l[k]? = some ln → isMsg ln = false → shouldKeepLine S ln = true →
      ln ∈ (pass3 cut S i l).1 := by
  induction l with
  | nil => intro i k ln h; simp at h
  | cons x xs ih =>
    intro i k ln h hm hs
    cases k with
    | zero =>
      simp only [List.getElem?_cons_zero, Option.some_inj] at h
      subst h
      simp [pass3, hm, hs]
    | succ k =>
      simp only [List.getElem?_cons_succ] at h
      have hrec := ih (i + 1) k ln h hm hs
      by_cases hmx : isMsg x = true
      · by_cases hcx : idxGEb i cut = true
        · simp only [pass3, hmx, hcx, if_true]
          exact List.mem_cons_of_mem _ hrec
        · simpa only [pass3, hmx, if_true, hcx, if_false] using hrec
      · by_cases hsx : shouldKeepLine S x = true
        · simp only [pass3, hmx, if_false, hsx, if_true]
          exact List.mem_cons_of_mem _ hrec
        · simpa only [pass3, hmx, if_false, hsx] using hrec

theorem pass3_kept_eq (l : List Line) (cut : Option Nat) (S : List String) :
    ∀ i : Nat, (pass3 cut S i l).2.1 = (pass3 cut S i l).1.countP isMsg := by
  induction l with
  | nil => intro i; simp [pass3]
  | cons x xs ih =>
    intro i
    by_cases hm : isMsg x = true
    · by_cases hc : idxGEb i cut = true
      · simp [pass3, hm, hc, List.countP_cons, ih (i + 1)]
      · simp [pass3, hm, hc, ih (i + 1)]
    · by_cases hs : shouldKeepLine S x = true
      · simp [pass3, hm, hs, List.countP_cons, ih (i + 1)]
      · simp [pass3, hm, hs, ih (i + 1)]

theorem passB_mem_origin (l : List Line) (b : Nat) (S : List String) :
    ∀ (i : Nat) (ln : Line), ln ∈ (passB b S i l).1 →
      ∃ k : Nat, l[k]? = some ln ∧ b ≤ i + k := by
  induction l with
  | nil => intro i ln h; simp [passB] at h
  | cons x xs ih =>
    intro i ln h
    by_cases hb : b ≤ i
    · have hb' : (b ≤ i) = True := by simp [hb]
      by_cases hm : isMsg x = true
      · simp only [passB, hb', if_true, hm] at h
        rcases List.mem_cons.mp h with h1 | h2
        · exact ⟨0, by simp [h1], by omega⟩
        · obtain ⟨k, hk, hbk⟩ := ih (i + 1) ln h2
          exact ⟨k + 1, by simpa using hk, by omega⟩
      · by_cases hs : shouldKeepLine S x = true
        · simp only [passB, hb', if_true, hm, hs, Bool.false_eq_true, if_false] at h
          rcases List.mem_cons.mp h with h1 | h2
          · exact ⟨0, by simp [h1], by omega⟩
          · obtain ⟨k, hk, hbk⟩ := ih (i + 1) ln h2
            exact ⟨k + 1, by simpa using hk, by omega⟩
        · simp only [passB, hb', if_true, hm, hs, Bool.false_eq_true, if_false] at h
          obtain ⟨k, hk, hbk⟩ := ih (i + 1) ln h
          exact ⟨k + 1, by simpa using hk, by omega⟩
    · have hb' : (b ≤ i) = False := by simp [hb]
      by_cases hm : isMsg x = true <;>
      · simp only [passB, hb', if_false, hm] at h
        obtain ⟨k, hk, hbk⟩ := ih (i + 1) ln h
        exact ⟨k + 1, by simpa using hk, by omega⟩

theorem passB_mem_trId (l : List Line) (b : Nat) (S : List String) :
    ∀ (i : Nat) (ln : Line) (s : String), ln ∈ (passB b S i l).1 →
      trTruthyId ln = some s → S.contains s = true := by
  induction l with
  | nil => intro i ln s h; simp [passB] at h
  | cons x xs ih =>
    intro i ln s h hid
    by_cases hb : b ≤ i
    · have hb' : (b ≤ i) = True := by simp [hb]
      by_cases hm : isMsg x = true
      · simp only [passB, hb', if_true, hm] at h
        rcases List.mem_cons.mp h with h1 | h2
        · rw [h1] at hid
          rw [trTruthyId_not_msg x s hid] at hm
          exact absurd hm (by simp)
        · exact ih (i + 1) ln s h2 hid
      · by_cases hs : shouldKeepLine S x = true
        · simp only [passB, hb', if_true, hm, hs, Bool.false_eq_true, if_false] at h
          rcases List.mem_cons.mp h with h1 | h2
          · exact trId_shouldKeep S x s (h1 ▸ hid) hs
          · exact ih (i + 1) ln s h2 hid
        · simp only [passB, hb', if_true, hm, hs, Bool.false_eq_true, if_false] at h
          exact ih (i + 1) ln s h hid
    · have hb' : (b ≤ i) = False := by simp [hb]
      by_cases hm : isMsg x = true <;>
        simp only [passB, hb', if_false, hm, Bool.false_eq_true, if_true] at h <;>
        exact ih (i + 1) ln s h hid

theorem passB_keep (l : List Line) (b : Nat) (S : List String) :
    ∀ (i k : Nat) (ln : Line), l[k]? = some ln → b ≤ i + k →
      (isMsg ln = true ∨ (isMsg ln = false ∧ shouldKeepLine S ln = true)) →
      ln ∈ (passB b S i l).1 := by
  induction l with
  | nil => intro i k ln h; simp at h
  | cons x xs ih =>
    intro i k ln h hbk hcase
    cases k with
    | zero =>
      simp only [List.getElem?_cons_zero, Option.some_inj] at h
      subst h
      simp only [Nat.add_zero] at hbk
      rcases hcase with hm | ⟨hm, hs⟩
      · simp [passB, hbk, hm]
      · simp [passB, hbk, hm, hs]
    | succ k =>
      simp only [List.getElem?_cons_succ] at h
      have hrec := ih (i + 1) k ln h (by omega) hcase
      by_cases hb : b ≤ i
      · have hb' : (b ≤ i) = True := by simp [hb]
        by_cases hmx : isMsg x = true
        · simp only [passB, hb', if_true, hmx]
          exact List.mem_cons_of_mem _ hrec
        · by_cases hsx : shouldKeepLine S x = true
          · simp only [passB, hb', if_true, hmx, hsx, Bool.false_eq_true, if_false]
            exact List.mem_cons_of_mem _ hrec
          · simpa only [passB, hb', if_true, hmx, hsx, Bool.false_eq_true,
              if_false] using hrec
      · have hb' : (b ≤ i) = False := by simp [hb]
        by_cases hmx : isMsg x = true <;>
          simpa only [passB, hb', if_false, hmx, Bool.false_eq_true, if_true] using hrec

theorem passB_kept_eq (l : List Line) (b : Nat) (S : List String) :
    ∀ i : Nat, (passB b S i l).2.1 = (passB b S i l).1.countP isMsg := by
  induction l with
  | nil => intro i; simp [passB]
  | cons x xs ih =>
    intro i
    by_cases hb : b ≤ i
    · have hb' : (b ≤ i) = True := by simp [hb]
      by_cases hm : isMsg x = true
      · simp [passB, hb', hm, List.countP_cons, ih (i + 1)]
      · by_cases hs : shouldKeepLine S x = true
        · simp [passB, hb', hm, hs, List.countP_cons, ih (i + 1)]
        · simp [passB, hb', hm, hs, ih (i + 1)]
    · have hb' : (b ≤ i) = False := by simp [hb]
      by_cases hm : isMsg x = true <;> simp [passB, hb', hm, ih (i + 1)]

theorem passB_all_below (l : List Line) (b : Nat) (S : List String) :
    ∀ i : Nat, (∀ k : Nat, k < l.length → i + k < b) →
      passB b S i l = ([], 0, l.countP isMsg) := by
  induction l with
  | nil => intro i _; simp [passB]
  | cons x xs ih =>
    intro i hall
    have hb : ¬ b ≤ i := by
      have := hall 0 (by simp)
      omega
    have hb' : (b ≤ i) = False := by simp [hb]
    have hrec := ih (i + 1) (fun k hk => by
      have := hall (k + 1) (by simpa using Nat.succ_lt_succ hk)
      omega)
    by_cases hm : isMsg x = true <;>
      simp [passB, hb', hm, hrec, List.countP_cons]

theorem pass3_none (l : List Line) (S : List String) :
    ∀ i : Nat, (pass3 none S i l).2.1 = 0 ∧
      (pass3 none S i l).2.2 = l.countP isMsg ∧
      (∀ ln ∈ (pass3 none S i l).1, isMsg ln = false) := by
  induction l with
  | nil => intro i; simp [pass3]
  | cons x xs ih =>
    intro i
    obtain ⟨h1, h2, h3⟩ := ih (i + 1)
    have hc : idxGEb i none = false := rfl
    by_cases hm : isMsg x = true
    · refine ⟨by simp [pass3, hm, hc, h1], by simp [pass3, hm, hc, h2, List.countP_cons], ?_⟩
      intro ln hln
      simp only [pass3, hm, hc, Bool.false_eq_true, if_false, if_true] at hln
      exact h3 ln hln
    · by_cases hs : shouldKeepLine S x = true
      · refine ⟨by simp [pass3, hm, hs, h1], by simp [pass3, hm, hs, h2, List.countP_cons], ?_⟩
        intro ln hln
        simp only [pass3, hm, hs, Bool.false_eq_true, if_false, if_true] at hln
        rcases List.mem_cons.mp hln with h1' | h2'
        · rw [h1']; simpa using hm
        · exact h3 ln h2'
      · refine ⟨by simp [pass3, hm, hs, h1], by simp [pass3, hm, hs, h2, List.countP_cons], ?_⟩
        intro ln hln
        simp only [pass3, hm, hs, Bool.false_eq_true, if_false] at hln
        exact h3 ln hln

theorem pass3_all_keep (l : List Line) (S : List String)
    (hall : ∀ ln ∈ l, isMsg ln = false → shouldKeepLine S ln = true) :
    ∀ i : Nat, pass3 (some 0) S i l = (l, l.countP isMsg, 0) := by
  induction l with
  | nil => intro i; simp [pass3]
  | cons x xs ih =>
    intro i
    have hc : idxGEb i (some 0) = true := by simp [idxGEb]
    have hrec := ih (fun ln hln => hall ln (List.mem_cons_of_mem _ hln)) (i + 1)
    by_cases hm : isMsg x = true
    · simp [pass3, hm, hc, hrec, List.countP_cons]
    · have hs := hall x (List.mem_cons_self _ _) (by simpa using hm)
      simp [pass3, hm, hs, hrec, List.countP_cons]

theorem harvest_spec (l : List Line) (cut : Option Nat) :
    ∀ (i : Nat) (s : String), s ∈ harvestIds cut i l →
      ∃ (k : Nat) (ln : Line), l[k]? = some ln ∧ i + k ≠ 0 ∧
        idxGEb (i + k) cut = true ∧ isAssistant ln = true ∧ s ∈ toolUseIds ln := by
  induction l with
  | nil => intro i s h; simp [harvestIds] at h
  | cons x xs ih =>
    intro i s h
    simp only [harvestIds, List.mem_append] at h
    rcases h with h1 | h2
    · by_cases hg : (i != 0 && idxGEb i cut && isAssistant x) = true
      · rw [if_pos hg] at h1
        simp only [Bool.and_eq_true, bne_iff_ne] at hg
        refine ⟨0, x, by simp, by omega, ?_, hg.2, h1⟩
        rw [Nat.add_zero]
        exact hg.1.2
      · rw [if_neg hg] at h1
        simp at h1
    · obtain ⟨k, ln, hk, hnz, hge, ha, hs⟩ := ih (i + 1) s h2
      refine ⟨k + 1, ln, by simpa using hk, by omega, ?_, ha, hs⟩
      rw [show i + (k + 1) = i + 1 + k by omega]
      exact hge

theorem harvest_complete (l : List Line) (cut : Option Nat) :
    ∀ (i k : Nat) (ln : Line) (s : String), l[k]? = some ln → i + k ≠ 0 →
      idxGEb (i + k) cut = true → isAssistant ln = true → s ∈ toolUseIds ln →
      s ∈ harvestIds cut i l := by
  induction l with
  | nil => intro i k ln s h; simp at h
  | cons x xs ih =>
    intro i k ln s h hnz hge ha hs
    simp only [harvestIds, List.mem_append]
    cases k with
    | zero =>
      simp only [List.getElem?_cons_zero, Option.some_inj] at h
      simp only [Nat.add_zero] at hnz hge
      left
      have hg : (i != 0 && idxGEb i cut && isAssistant x) = true := by
        rw [← h] at ha
        simp only [Bool.and_eq_true, bne_iff_ne]
        exact ⟨⟨by omega, hge⟩, ha⟩
      rw [if_pos hg, h]
      exact hs
    | succ k =>
      simp only [List.getElem?_cons_succ] at h
      right
      refine ih (i + 1) k ln s h (by omega) ?_ ha hs
      rw [show i + 1 + k = i + (k + 1) by omega]
      exact hge

/-- Count of message records failing `idx >= cut`, starting at index `i`
(the messages `pruneSessionLines` reports as dropped). -/
def droppedCount (cut : Option Nat) : Nat → List Line → Nat
  | _, [] => 0
  | i, ln :: rest =>
    (if isMsg ln && !idxGEb i cut then 1 else 0) + droppedCount cut (i + 1) rest

/-- Count of message records at index `< b`, starting at index `i`
(the messages `pruneToBoundary` reports as dropped). -/
def droppedCountB (b : Nat) : Nat → List Line → Nat
  | _, [] => 0
  | i, ln :: rest =>
    (if isMsg ln && decide (i < b) then 1 else 0) + droppedCountB b (i + 1) rest

theorem pass3_dropped (l : List Line) (cut : Option Nat) (S : List String) :
    ∀ i : Nat, (pass3 cut S i l).2.2 = droppedCount cut i l := by
  induction l with
  | nil => intro i; simp [pass3, droppedCount]
  | cons x xs ih =>
    intro i
    by_cases hm : isMsg x = true
    · by_cases hc : idxGEb i cut = true
      · simp [pass3, droppedCount, hm, hc, ih (i + 1)]
      · simp [pass3, droppedCount, hm,
          (by simpa using hc : idxGEb i cut = false), ih (i + 1), Nat.add_comm]
    · by_cases hs : shouldKeepLine S x = true
      · simp [pass3, droppedCount, hm, hs, ih (i + 1)]
      · simp [pass3, droppedCount, hm, hs, ih (i + 1)]

theorem passB_dropped (l : List Line) (b : Nat) (S : List String) :
    ∀ i : Nat, (passB b S i l).2.2 = droppedCountB b i l := by
  induction l with
  | nil => intro i; simp [passB, droppedCountB]
  | cons x xs ih =>
    intro i
    by_cases hb : b ≤ i
    · have hb' : (b ≤ i) = True := by simp [hb]
      have hlt : (decide (i < b)) = false := by simp; omega
      by_cases hm : isMsg x = true
      · simp [passB, droppedCountB, hb', hm, hlt, ih (i + 1)]
      · by_cases hs : shouldKeepLine S x = true
        · simp [passB, droppedCountB, hb', hm, hs, hlt, ih (i + 1)]
        · simp [passB, droppedCountB, hb', hm, hs, hlt, ih (i + 1)]
    · have hb' : (b ≤ i) = False := by simp [hb]
      have hlt : (decide (i < b)) = true := by simp; omega
      by_cases hm : isMsg x = true <;>
        simp [passB, droppedCountB, hb', hm, hlt, ih (i + 1), Nat.add_comm]

theorem droppedCount_zeroAt (l : List Line) (cut : Option Nat) (j : Nat) :
    ∀ i i' : Nat, droppedCount cut i (zeroAt j i' l) = droppedCount cut i l := by
  induction l with
  | nil => intro i i'; simp [zeroAt]
  | cons x xs ih =>
    intro i i'
    simp only [zeroAt, droppedCount, ih i.succ i'.succ]
    by_cases h : i' = j <;> simp [h, zeroLine_isMsg]

theorem droppedCountB_zeroAt (l : List Line) (b j : Nat) :
    ∀ i i' : Nat, droppedCountB b i (zeroAt j i' l) = droppedCountB b i l := by
  induction l with
  | nil => intro i i'; simp [zeroAt]
  | cons x xs ih =>
    intro i i'
    simp only [zeroAt, droppedCountB, ih i.succ i'.succ]
    by_cases h : i' = j <;> simp [h, zeroLine_isMsg]

/-- The tail of `zeroLastCache` is the tail of the input with at most one
line zeroed; its message count is that of the input's tail. -/
theorem zeroLastCache_tail_countP (h : Line) (t : List Line) :
    (zeroLastCache (h :: t)).tail.countP isMsg = t.countP isMsg := by
  unfold zeroLastCache
  cases lastCacheIdx 0 (h :: t) with
  | none => rfl
  | some j => simp [zeroAt, zeroAt_countP]

theorem zeroLastCache_tail_droppedCount (h : Line) (t : List Line) (cut : Option Nat)
    (i : Nat) : droppedCount cut i (zeroLastCache (h :: t)).tail = droppedCount cut i t := by
  unfold zeroLastCache
  cases lastCacheIdx 0 (h :: t) with
  | none => rfl
  | some j => simp [zeroAt, droppedCount_zeroAt]

theorem zeroLastCache_tail_droppedCountB (h : Line) (t : List Line) (b : Nat)
    (i : Nat) : droppedCountB b i (zeroLastCache (h :: t)).tail = droppedCountB b i t := by
  unfold zeroLastCache
  cases lastCacheIdx 0 (h :: t) with
  | none => rfl
  | some j => simp [zeroAt, droppedCountB_zeroAt]

theorem zeroAt_length (l : List Line) (j : Nat) :
    ∀ i : Nat, (zeroAt j i l).length = l.length := by
  induction l with
  | nil => intro i; rfl
  | cons x xs ih => intro i; simp [zeroAt, ih (i + 1)]

theorem zeroLastCache_length (lines : List Line) :
    (zeroLastCache lines).length = lines.length := by
  unfold zeroLastCache
  cases lastCacheIdx 0 lines with
  | none => rfl
  | some j => exact zeroAt_length lines j 0

theorem insertDesc_mem (x y : Boundary) (l : List Boundary) :
    y ∈ insertDesc x l ↔ y = x ∨ y ∈ l := by
  induction l with
  | nil => simp [insertDesc]
  | cons z zs ih =>
    by_cases h : x.lineNumber < z.lineNumber
    · simp only [insertDesc, if_pos h, List.mem_cons, ih]
      tauto
    · simp [insertDesc, if_neg h, List.mem_cons]

theorem insertDesc_pairwise (x : Boundary) (l : List Boundary)
    (h : l.Pairwise (fun a b => b.lineNumber ≤ a.lineNumber)) :
    (insertDesc x l).Pairwise (fun a b => b.lineNumber ≤ a.lineNumber) := by
  induction l with
  | nil => simp [insertDesc]
  | cons z zs ih =>
    rcases List.pairwise_cons.mp h with ⟨hz, hzs⟩
    by_cases hx : x.lineNumber < z.lineNumber
    · rw [insertDesc, if_pos hx]
      refine List.pairwise_cons.mpr ⟨?_, ih hzs⟩
      intro y hy
      rcases (insertDesc_mem x y zs).mp hy with h1 | h2
      · rw [h1]; omega
      · exact hz y h2
    · rw [insertDesc, if_neg hx]
      refine List.pairwise_cons.mpr ⟨?_, h⟩
      intro y hy
      rcases List.mem_cons.mp hy with h1 | h2
      · rw [h1]; omega
      · have := hz y h2; omega

theorem sortDesc_pairwise (l : List Boundary) :
    (sortDesc l).Pairwise (fun a b => b.lineNumber ≤ a.lineNumber) := by
  induction l with
  | nil => simp [sortDesc]
  | cons x xs ih => exact insertDesc_pairwise x (sortDesc xs) ih

theorem sortDesc_mem (l : List Boundary) (y : Boundary) :
    y ∈ sortDesc l ↔ y ∈ l := by
  induction l with
  | nil => simp [sortDesc]
  | cons x xs ih =>
    rw [sortDesc, insertDesc_mem, ih]
    simp [List.mem_cons, eq_comm]

theorem mkIntent_retention (total i chars : Nat) (raw : String) :
    (mkIntent total i chars raw).retentionPercentage = retentionOf total chars := by
  unfold mkIntent
  rcases parseBoundaryLabel raw with _ | ⟨ts, _ | it⟩ <;> rfl

theorem mkIntent_lineNumber (total i chars : Nat) (raw : String) :
    (mkIntent total i chars raw).lineNumber = i := by
  unfold mkIntent
  rcases parseBoundaryLabel raw with _ | ⟨ts, _ | it⟩ <;> rfl

theorem offsetAt_cons_succ (x : Line) (xs : List Line) (k : Nat) :
    offsetAt (x :: xs) (k + 1) = x.raw.length + 1 + offsetAt xs k := by
  simp [offsetAt, List.take_succ_cons, Nat.add_assoc, Nat.add_comm, Nat.add_left_comm]

theorem intentScan_spec (l : List Line) (total : Nat) :
    ∀ (i pos : Nat) (bd : Boundary), bd ∈ intentScan total i pos l →
      ∃ (k : Nat) (ln : Line), l[k]? = some ln ∧ strContains ln.raw MARKER = true ∧
        bd = mkIntent total (i + k) (pos + offsetAt l k) ln.raw := by
  induction l with
  | nil => intro i pos bd h; simp [intentScan] at h
  | cons x xs ih =>
    intro i pos bd h
    simp only [intentScan, List.mem_append] at h
    rcases h with h1 | h2
    · by_cases hc : strContains x.raw MARKER = true
      · rw [if_pos hc] at h1
        simp only [List.mem_singleton] at h1
        exact ⟨0, x, by simp, hc, by simpa [offsetAt] using h1⟩
      · rw [if_neg hc] at h1
        simp at h1
    · obtain ⟨k, ln, hk, hc, hbd⟩ := ih (i + 1) (pos + x.raw.length + 1) bd h2
      refine ⟨k + 1, ln, by simpa using hk, hc, ?_⟩
      rw [hbd, offsetAt_cons_succ]
      congr 1
      · omega
      · omega

theorem gitScan_spec (l : List Line) (total : Nat) :
    ∀ (i pos : Nat) (prior : List Line) (bd : Boundary), bd ∈ gitScan total i pos prior l →
      ∃ (k : Nat) (ln : Line), l[k]? = some ln ∧ isCommitResult ln = true ∧
        ∃ msg, bd = mkGit total (i + k) (pos + offsetAt l k) msg := by
  induction l with
  | nil => intro i pos prior bd h; simp [gitScan] at h
  | cons x xs ih =>
    intro i pos prior bd h
    simp only [gitScan, List.mem_append] at h
    rcases h with h1 | h2
    · by_cases hc : isCommitResult x = true
      · rw [if_pos hc] at h1
        simp only [List.mem_singleton] at h1
        exact ⟨0, x, by simp, hc, findCommitMsg prior, by simpa [offsetAt] using h1⟩
      · rw [if_neg hc] at h1
        simp at h1
    · obtain ⟨k, ln, hk, hc, msg, hbd⟩ := ih (i + 1) (pos + x.raw.length + 1) (x :: prior) bd h2
      refine ⟨k + 1, ln, by simpa using hk, hc, msg, ?_⟩
      rw [hbd, offsetAt_cons_succ]
      congr 1
      · omega
      · omega

theorem offsetAt_le_joinLen (lines : List Line) :
    ∀ (k : Nat) (ln : Line), lines[k]? = some ln →
      offsetAt lines k + ln.raw.length ≤ joinLen lines := by
  induction lines with
  | nil => intro k ln h; simp at h
  | cons x xs ih =>
    intro k ln h
    cases k with
    | zero =>
      simp only [List.getElem?_cons_zero, Option.some_inj] at h
      subst h
      cases xs with
      | nil => simp [offsetAt, joinLen]
      | cons y ys => simp [offsetAt, joinLen]; omega
    | succ k =>
      simp only [List.getElem?_cons_succ] at h
      have := ih k ln h
      rw [offsetAt_cons_succ]
      cases xs with
      | nil => simp at h
      | cons y ys =>
        simp only [joinLen]
        omega

theorem subSearch_ne_nil (pat l : List Char) (hp : pat ≠ [])
    (h : subSearch pat l = true) : l ≠ [] := by
  cases l with
  | nil => simp [subSearch, List.isEmpty_iff] at h; exact absurd h hp
  | cons c cs => simp

theorem strContains_marker_len (s : String) (h : strContains s MARKER = true) :
    1 ≤ s.length := by
  have hne : s.data ≠ [] := subSearch_ne_nil MARKER.data s.data (by decide) h
  have : s.length = s.data.length := rfl
  rw [this]
  cases hd : s.data with
  | nil => exact absurd hd hne
  | cons c cs => simp

theorem jsRound_bounds (t c : Nat) (hc : c ≤ t) (ht : 0 < t) :
    0 ≤ retentionOf t c ∧ retentionOf t c ≤ 100 := by
  unfold retentionOf jsRound
  have ht' : (0 : ℚ) < (t : ℚ) := by exact_mod_cast ht
  have hc' : (c : ℚ) ≤ (t : ℚ) := by exact_mod_cast hc
  have h0 : (0 : ℚ) ≤ ((t : ℚ) - (c : ℚ)) / (t : ℚ) := by
    apply div_nonneg <;> linarith
  have h1 : ((t : ℚ) - (c : ℚ)) / (t : ℚ) ≤ 1 := by
    rw [div_le_one ht']
    linarith
  constructor
  · apply Int.le_floor.mpr
    push_cast
    nlinarith
  · have : (((t : ℚ) - (c : ℚ)) / (t : ℚ)) * 100 + 1 / 2 < 101 := by nlinarith
    have hlt := Int.floor_lt.mpr (by push_cast; linarith :
      (((t : ℚ) - (c : ℚ)) / (t : ℚ)) * 100 + 1 / 2 < ((101 : Int) : ℚ))
    omega

theorem pruneSessionLines_mem_of_pass (lines : List Line) (keepN : Int) (ln : Line)
    (h : ln ∈ (pass3 (cutFromOf lines keepN.toNat)
      (harvestIds (cutFromOf lines keepN.toNat) 0 lines) 1 (zeroLastCache lines).tail).1) :
    ln ∈ (pruneSessionLines lines keepN).outLines := by
  cases lines with
  | nil => simpa [pruneSessionLines] using h
  | cons x xs =>
    simp only [pruneSessionLines]
    exact List.mem_append_right _ h

theorem pruneToBoundary_mem_of_pass (lines : List Line) (b : Nat) (ln : Line)
    (h : ln ∈ (passB b (harvestIds (some b) 0 lines) 1 (zeroLastCache lines).tail).1) :
    ln ∈ (pruneToBoundary lines b).outLines := by
  cases lines with
  | nil => simpa [pruneToBoundary] using h
  | cons x xs =>
    simp only [pruneToBoundary]
    exact List.mem_append_right _ h

theorem pruneSessionLines_tail (lines : List Line) (keepN : Int) :
    (pruneSessionLines lines keepN).outLines.tail =
      (pass3 (cutFromOf lines keepN.toNat)
        (harvestIds (cutFromOf lines keepN.toNat) 0 lines) 1 (zeroLastCache lines).tail).1 := by
  cases lines with
  | nil => simp [pruneSessionLines, zeroLastCache, lastCacheIdx, pass3]
  | cons x xs => simp [pruneSessionLines]

theorem pruneToBoundary_tail (lines : List Line) (b : Nat) :
    (pruneToBoundary lines b).outLines.tail =
      (passB b (harvestIds (some b) 0 lines) 1 (zeroLastCache lines).tail).1 := by
  cases lines with
  | nil => simp [pruneToBoundary, zeroLastCache, lastCacheIdx, passB]
  | cons x xs => simp [pruneToBoundary]

theorem trTruthyId_none_of_falsy (ln : Line) (ht : lineType ln = some "tool_result")
    (hf : truthy (toolUseIdOf ln) = false) : trTruthyId ln = none := by
  cases hp : ln.parsed with
  | none => simp [trTruthyId, hp]
  | some o =>
    simp only [lineType, hp, Option.some_bind] at ht
    simp only [toolUseIdOf, hp, Option.some_bind] at hf
    simp only [trTruthyId, hp, ht, if_pos]
    cases hi : o.tool_use_id with
    | none => rfl
    | some s =>
      rw [hi] at hf
      simp only [truthy] at hf
      simp only [decide_eq_false_iff_not, Decidable.not_not] at hf
      simp [hf]

/-! ## Concrete lines for the concrete instances -/

/-- A metadata head line. -/
def lnHead : Line :=
  ⟨"\x7b\"type\":\"summary\"\x7d", some ⟨some "summary", .absent, none, none, none, none⟩⟩

/-- A plain `user` message line. -/
def lnUser : Line :=
  ⟨"\x7b\"type\":\"user\"\x7d", some ⟨some "user", .absent, none, none, none, none⟩⟩

/-- A plain `assistant` message line. -/
def lnAsst : Line :=
  ⟨"\x7b\"type\":\"assistant\"\x7d", some ⟨some "assistant", .absent, none, none, none, none⟩⟩

/-- An `assistant` line whose content array contains `tool_use` id `i`. -/
def lnAsstT (i : String) : Line :=
  ⟨"\x7b\"type\":\"assistant\",\"content\":[...]\x7d",
    some ⟨some "assistant", .items [.toolUse (some i)], none, none, none, none⟩⟩

/-- A `tool_result` line referencing invocation id `i`. -/
def lnTR (i : String) : Line :=
  ⟨"\x7b\"type\":\"tool_result\"\x7d", some ⟨some "tool_result", .absent, some i, none, none, none⟩⟩

/-- A `tool_result` line without a `tool_use_id`. -/
def lnTRnoId : Line :=
  ⟨"\x7b\"type\":\"tool_result\"\x7d", some ⟨some "tool_result", .absent, none, none, none, none⟩⟩

/-- A non-JSON diagnostic line. -/
def lnOpaque : Line := ⟨"not json", none⟩

/-- A `user` line bearing `cache_read_input_tokens = v`. -/
def lnUserC (v : Int) : Line :=
  ⟨"\x7b\"type\":\"user\",\"usage\":...\x7d",
    some ⟨some "user", .absent, none, none, none, some v⟩⟩

/-- A head line bearing `cache_read_input_tokens = 5`. -/
def lnHeadC : Line :=
  ⟨"\x7b\"type\":\"summary\",\"usage\":...\x7d",
    some ⟨some "summary", .absent, none, none, none, some 5⟩⟩

/-! ## Claims -/

/-- **C2** (head preservation): for every non-empty input line list and every
mode parameter, the first element of the output of both pruning operations
equals the input's first line — the very same `Line`, raw bytes included —
regardless of its content or parse status, including when it is the last
cache-bearing record of the input (the head is pushed from the original
`lines[0]`, before any rewriting). -/
theorem C2_head_preservation (h : Line) (t : List Line) (keepN : Int) (b : Nat) :
    (pruneSessionLines (h :: t) keepN).outLines.head? = some h ∧
    (pruneToBoundary (h :: t) b).outLines.head? = some h := by
  constructor <;> rfl

/-- **C9** (out-of-range boundary): for keep-from-boundary with cut index `b`
strictly greater than the last line index of a non-empty input, the output is
exactly the head, `kept = 0`, and `dropped` is the number of message records
at indices ≥ 1. -/
theorem C9_out_of_range_boundary (h : Line) (t : List Line) (b : Nat)
    (hb : (h :: t).length ≤ b) :
    (pruneToBoundary (h :: t) b).outLines = [h] ∧
    (pruneToBoundary (h :: t) b).kept = 0 ∧
    (pruneToBoundary (h :: t) b).dropped = t.countP isMsg := by
  have hlen : (zeroLastCache (h :: t)).tail.length = t.length := by
    rw [List.length_tail, zeroLastCache_length]
    rfl
  have hall : ∀ k : Nat, k < (zeroLastCache (h :: t)).tail.length → 1 + k < b := by
    intro k hk
    rw [hlen] at hk
    simp only [List.length_cons] at hb
    omega
  have hp := passB_all_below (zeroLastCache (h :: t)).tail b
      (harvestIds (some b) 0 (h :: t)) 1 hall
  refine ⟨?_, ?_, ?_⟩
  · simp [pruneToBoundary, hp]
  · simp [pruneToBoundary, hp]
  · have := zeroLastCache_tail_countP h t
    simp [pruneToBoundary, hp, this]

/-- Witness for `C9_out_of_range_boundary` at a concrete input. -/
theorem C9_out_of_range_boundary_witness :
    ([lnHead, lnUser, lnOpaque, lnAsst].length ≤ 9) ∧
    ((pruneToBoundary [lnHead, lnUser, lnOpaque, lnAsst] 9).outLines = [lnHead] ∧
     (pruneToBoundary [lnHead, lnUser, lnOpaque, lnAsst] 9).kept = 0 ∧
     (pruneToBoundary [lnHead, lnUser, lnOpaque, lnAsst] 9).dropped =
       [lnUser, lnOpaque, lnAsst].countP isMsg) :=
  ⟨by decide, C9_out_of_range_boundary lnHead [lnUser, lnOpaque, lnAsst] 9 (by decide)⟩

/-- **C10** (orphan-filter scope): in both pruning operations, every line at
index ≥ 1 satisfying the cut condition that parses as a `tool_result`
without a `tool_use_id` (or with a falsy one) is kept in the output; more
generally the orphan filter drops only `tool_result` records whose truthy
`tool_use_id` is absent from the surviving invocation-id set — any line at
such an index whose (possible) truthy id is in the harvested set is kept. -/
theorem C10_orphan_filter_scope :
    ((∀ (lines : List Line) (keepN : Int) (k : Nat) (ln : Line),
        1 ≤ k → idxGEb k (cutFromOf lines keepN.toNat) = true →
        (zeroLastCache lines)[k]? = some ln →
        lineType ln = some "tool_result" → truthy (toolUseIdOf ln) = false →
        ln ∈ (pruneSessionLines lines keepN).outLines) ∧
      (∀ (lines : List Line) (b k : Nat) (ln : Line),
        1 ≤ k → b ≤ k → (zeroLastCache lines)[k]? = some ln →
        lineType ln = some "tool_result" → truthy (toolUseIdOf ln) = false →
        ln ∈ (pruneToBoundary lines b).outLines)) ∧
    ((∀ (lines : List Line) (keepN : Int) (k : Nat) (ln : Line),
        1 ≤ k → idxGEb k (cutFromOf lines keepN.toNat) = true →
        (zeroLastCache lines)[k]? = some ln →
        (∀ s, trTruthyId ln = some s →
          (harvestIds (cutFromOf lines keepN.toNat) 0 lines).contains s = true) →
        ln ∈ (pruneSessionLines lines keepN).outLines) ∧
      (∀ (lines : List Line) (b k : Nat) (ln : Line),
        1 ≤ k → b ≤ k → (zeroLastCache lines)[k]? = some ln →
        (∀ s, trTruthyId ln = some s →
          (harvestIds (some b) 0 lines).contains s = true) →
        ln ∈ (pruneToBoundary lines b).outLines)) := by
  have core3 : ∀ (lines : List Line) (keepN : Int) (k : Nat) (ln : Line),
      1 ≤ k → idxGEb k (cutFromOf lines keepN.toNat) = true →
      (zeroLastCache lines)[k]? = some ln →
      (∀ s, trTruthyId ln = some s →
        (harvestIds (cutFromOf lines keepN.toNat) 0 lines).contains s = true) →
      ln ∈ (pruneSessionLines lines keepN).outLines := by
    intro lines keepN k ln hk hge hget hS
    have htail : (zeroLastCache lines).tail[k - 1]? = some ln := by
      rw [tail_getElem, show k - 1 + 1 = k by omega]
      exact hget
    apply pruneSessionLines_mem_of_pass
    by_cases hm : isMsg ln = true
    · exact pass3_keep_msg _ _ _ 1 (k - 1) ln htail hm
        (by rw [show 1 + (k - 1) = k by omega]; exact hge)
    · exact pass3_keep_nonmsg _ _ _ 1 (k - 1) ln htail (by simpa using hm)
        (shouldKeep_of_trId _ _ hS)
  have core4 : ∀ (lines : List Line) (b k : Nat) (ln : Line),
      1 ≤ k → b ≤ k → (zeroLastCache lines)[k]? = some ln →
      (∀ s, trTruthyId ln = some s →
        (harvestIds (some b) 0 lines).contains s = true) →
      ln ∈ (pruneToBoundary lines b).outLines := by
    intro lines b k ln hk hb hget hS
    have htail : (zeroLastCache lines).tail[k - 1]? = some ln := by
      rw [tail_getElem, show k - 1 + 1 = k by omega]
      exact hget
    apply pruneToBoundary_mem_of_pass
    apply passB_keep _ _ _ 1 (k - 1) ln htail (by omega)
    by_cases hm : isMsg ln = true
    · exact Or.inl hm
    · exact Or.inr ⟨by simpa using hm, shouldKeep_of_trId _ _ hS⟩
  refine ⟨⟨?_, ?_⟩, core3, core4⟩
  · intro lines keepN k ln hk hge hget ht hf
    refine core3 lines keepN k ln hk hge hget ?_
    intro s hs
    rw [trTruthyId_none_of_falsy ln ht hf] at hs
    simp at hs
  · intro lines b k ln hk hb hget ht hf
    refine core4 lines b k ln hk hb hget ?_
    intro s hs
    rw [trTruthyId_none_of_falsy ln ht hf] at hs
    simp at hs

/-- Witness for `C10_orphan_filter_scope` at a concrete input: a
`tool_result` without `tool_use_id` after the cut is kept. -/
theorem C10_orphan_filter_scope_witness :
    ((1 : Nat) ≤ 1 ∧ idxGEb 1 (cutFromOf [lnHead, lnTRnoId] (Int.toNat 0)) = true ∧
     (zeroLastCache [lnHead, lnTRnoId])[1]? = some lnTRnoId ∧
     lineType lnTRnoId = some "tool_result" ∧ truthy (toolUseIdOf lnTRnoId) = false) ∧
    lnTRnoId ∈ (pruneSessionLines [lnHead, lnTRnoId] 0).outLines :=
  ⟨⟨by decide, by decide, by decide, by decide, by decide⟩,
    C10_orphan_filter_scope.1.1 [lnHead, lnTRnoId] 0 1 lnTRnoId
      (by decide) (by decide) (by decide) (by decide) (by decide)⟩

theorem isMsg_of_assistant (ln : Line) (h : isAssistant ln = true) : isMsg ln = true := by
  simp only [isAssistant, beq_iff_eq] at h
  simp [isMsg, h, MSG_TYPES]

/-- **C1** (counterexample): the claim as stated fails when the head line is
itself a `tool_result` carrying a `tool_use_id`: the head is kept
unconditionally, so the output contains a `tool_result` whose `tool_use_id`
matches no assistant record of the output. -/
theorem C1_counterexample :
    lnTR "T1" ∈ (pruneSessionLines [lnTR "T1"] 5).outLines ∧
    trTruthyId (lnTR "T1") = some "T1" ∧
    ¬ ∃ ln' ∈ (pruneSessionLines [lnTR "T1"] 5).outLines,
        isAssistant ln' = true ∧ "T1" ∈ toolUseIds ln' := by decide

/-- **C1** (amended: restricted to output records other than the head):
in both pruning operations, every record of the output *tail* of kind
`tool_result` carrying a truthy `tool_use_id` has that id equal to some
`tool_use` id carried in the content array of an `assistant` record that is
also in the output. -/
theorem C1_referential_integrity :
    (∀ (lines : List Line) (keepN : Int) (ln : Line) (s : String),
        ln ∈ (pruneSessionLines lines keepN).outLines.tail →
        trTruthyId ln = some s →
        ∃ ln', ln' ∈ (pruneSessionLines lines keepN).outLines ∧
          isAssistant ln' = true ∧ s ∈ toolUseIds ln') ∧
    (∀ (lines : List Line) (b : Nat) (ln : Line) (s : String),
        ln ∈ (pruneToBoundary lines b).outLines.tail →
        trTruthyId ln = some s →
        ∃ ln', ln' ∈ (pruneToBoundary lines b).outLines ∧
          isAssistant ln' = true ∧ s ∈ toolUseIds ln') := by
  constructor
  · intro lines keepN ln s hmem hid
    rw [pruneSessionLines_tail] at hmem
    have hS := pass3_mem_trId _ _ _ 1 ln s hmem hid
    have hs' : s ∈ harvestIds (cutFromOf lines keepN.toNat) 0 lines :=
      List.mem_of_elem_eq_true hS
    obtain ⟨k, ln0, hk, hnz, hge, ha, hids⟩ := harvest_spec lines _ 0 s hs'
    simp only [Nat.zero_add] at hnz hge
    obtain ⟨ln1, hk1, hcase⟩ := zeroLastCache_getElem lines k ln0 hk
    have ha1 : isAssistant ln1 = true := by
      rcases hcase with rfl | rfl
      · exact ha
      · rw [zeroLine_isAssistant]; exact ha
    have hids1 : s ∈ toolUseIds ln1 := by
      rcases hcase with rfl | rfl
      · exact hids
      · rw [zeroLine_toolUseIds]; exact hids
    have htail : (zeroLastCache lines).tail[k - 1]? = some ln1 := by
      rw [tail_getElem, show k - 1 + 1 = k by omega]
      exact hk1
    have hmem1 := pass3_keep_msg _ (cutFromOf lines keepN.toNat)
      (harvestIds (cutFromOf lines keepN.toNat) 0 lines) 1 (k - 1) ln1 htail
      (isMsg_of_assistant ln1 ha1)
      (by rw [show 1 + (k - 1) = k by omega]; exact hge)
    exact ⟨ln1, pruneSessionLines_mem_of_pass _ _ _ hmem1, ha1, hids1⟩
  · intro lines b ln s hmem hid
    rw [pruneToBoundary_tail] at hmem
    have hS := passB_mem_trId _ _ _ 1 ln s hmem hid
    have hs' : s ∈ harvestIds (some b) 0 lines := List.mem_of_elem_eq_true hS
    obtain ⟨k, ln0, hk, hnz, hge, ha, hids⟩ := harvest_spec lines _ 0 s hs'
    simp only [Nat.zero_add] at hnz hge
    obtain ⟨ln1, hk1, hcase⟩ := zeroLastCache_getElem lines k ln0 hk
    have ha1 : isAssistant ln1 = true := by
      rcases hcase with rfl | rfl
      · exact ha
      · rw [zeroLine_isAssistant]; exact ha
    have hids1 : s ∈ toolUseIds ln1 := by
      rcases hcase with rfl | rfl
      · exact hids
      · rw [zeroLine_toolUseIds]; exact hids
    have htail : (zeroLastCache lines).tail[k - 1]? = some ln1 := by
      rw [tail_getElem, show k - 1 + 1 = k by omega]
      exact hk1
    have hb : b ≤ 1 + (k - 1) := by
      have : idxGEb k (some b) = true := hge
      simp only [idxGEb, decide_eq_true_eq] at this
      omega
    have hmem1 := passB_keep _ b (harvestIds (some b) 0 lines) 1 (k - 1) ln1 htail hb
      (Or.inl (isMsg_of_assistant ln1 ha1))
    exact ⟨ln1, pruneToBoundary_mem_of_pass _ _ _ hmem1, ha1, hids1⟩

/-- Witness for `C1_referential_integrity` at a concrete input. -/
theorem C1_referential_integrity_witness :
    (lnTR "T" ∈ (pruneSessionLines [lnHead, lnAsstT "T", lnTR "T"] 5).outLines.tail ∧
     trTruthyId (lnTR "T") = some "T") ∧
    (∃ ln', ln' ∈ (pruneSessionLines [lnHead, lnAsstT "T", lnTR "T"] 5).outLines ∧
      isAssistant ln' = true ∧ "T" ∈ toolUseIds ln') :=
  ⟨⟨by decide, by decide⟩,
    C1_referential_integrity.1 [lnHead, lnAsstT "T", lnTR "T"] 5 (lnTR "T") "T"
      (by decide) (by decide)⟩

theorem pruneSessionLines_kept (lines : List Line) (keepN : Int) :
    (pruneSessionLines lines keepN).kept =
      (pass3 (cutFromOf lines keepN.toNat)
        (harvestIds (cutFromOf lines keepN.toNat) 0 lines) 1
        (zeroLastCache lines).tail).2.1 := by
  cases lines <;> rfl

theorem pruneSessionLines_dropped (lines : List Line) (keepN : Int) :
    (pruneSessionLines lines keepN).dropped =
      (pass3 (cutFromOf lines keepN.toNat)
        (harvestIds (cutFromOf lines keepN.toNat) 0 lines) 1
        (zeroLastCache lines).tail).2.2 := by
  cases lines <;> rfl

theorem pruneToBoundary_kept (lines : List Line) (b : Nat) :
    (pruneToBoundary lines b).kept =
      (passB b (harvestIds (some b) 0 lines) 1 (zeroLastCache lines).tail).2.1 := by
  cases lines <;> rfl

theorem pruneToBoundary_dropped (lines : List Line) (b : Nat) :
    (pruneToBoundary lines b).dropped =
      (passB b (harvestIds (some b) 0 lines) 1 (zeroLastCache lines).tail).2.2 := by
  cases lines <;> rfl

/-- **C5** (counterexample): with `keepN = 0` and one assistant record, the
read `assistantIndexes[assistantIndexes.length - 0]` is out of range
(JS `undefined`), every `idx >= cutFrom` comparison is false, and the
assistant record is dropped — the claim says the cut is at the first
assistant index and that assistant appears in the output. -/
theorem C5_counterexample :
    cutFromOf [lnHead, lnAsst] 0 = none ∧
    (pruneSessionLines [lnHead, lnAsst] 0).outLines = [lnHead] ∧
    lnAsst ∉ (pruneSessionLines [lnHead, lnAsst] 0).outLines := by decide

/-- **C5** (amended): for keep-by-assistant-count with `keepN = 0` on an
input with at least one assistant record at index ≥ 1, the cut value is the
out-of-range read (JS `undefined`, modelled `none`), so *no* message record
survives: `kept = 0`, the output tail contains no message records, and every
message record at index ≥ 1 is counted as dropped. -/
theorem C5_keepN_zero (lines : List Line) (ha : assistantIdxs 0 lines ≠ []) :
    cutFromOf lines 0 = none ∧
    (pruneSessionLines lines 0).kept = 0 ∧
    (∀ ln ∈ (pruneSessionLines lines 0).outLines.tail, isMsg ln = false) ∧
    (pruneSessionLines lines 0).dropped = lines.tail.countP isMsg := by
  have hlen : 0 < (assistantIdxs 0 lines).length := List.length_pos.mpr ha
  have hcut : cutFromOf lines 0 = none := by
    unfold cutFromOf
    rw [if_pos (by omega), Nat.sub_zero, List.get?_len_le (le_refl _)]
  have h0 : Int.toNat 0 = 0 := rfl
  refine ⟨hcut, ?_, ?_, ?_⟩
  · rw [pruneSessionLines_kept, h0, hcut]
    exact (pass3_none _ _ 1).1
  · intro ln hln
    rw [pruneSessionLines_tail, h0, hcut] at hln
    exact (pass3_none _ _ 1).2.2 ln hln
  · rw [pruneSessionLines_dropped, h0, hcut, (pass3_none _ _ 1).2.1]
    cases lines with
    | nil => rfl
    | cons h t => exact zeroLastCache_tail_countP h t

/-- Witness for `C5_keepN_zero` at a concrete input. -/
theorem C5_keepN_zero_witness :
    (assistantIdxs 0 [lnHead, lnUser, lnAsst] ≠ []) ∧
    (cutFromOf [lnHead, lnUser, lnAsst] 0 = none ∧
     (pruneSessionLines [lnHead, lnUser, lnAsst] 0).kept = 0 ∧
     (∀ ln ∈ (pruneSessionLines [lnHead, lnUser, lnAsst] 0).outLines.tail,
        isMsg ln = false) ∧
     (pruneSessionLines [lnHead, lnUser, lnAsst] 0).dropped =
       [lnUser, lnAsst].countP isMsg) :=
  ⟨by decide, C5_keepN_zero [lnHead, lnUser, lnAsst] (by decide)⟩

/-- **C4** (counterexample): when the last cache-bearing record is the head
line at index 0, the head is emitted from the *original* `lines[0]` (the
push happens before the rewritten lines are consumed), so the output of both
pruning operations contains the un-rewritten head and no record with
`cache_read_input_tokens = 0` at all — the claim asserts the re-serialized
record appears "in particular also when the last cache-bearing record is the
head line at index 0". -/
theorem C4_counterexample :
    lastCacheIdx 0 [lnHeadC] = some 0 ∧
    idxGEb 0 (cutFromOf [lnHeadC] (Int.toNat 1)) = true ∧
    cacheReadOf lnHeadC = some 5 ∧
    (pruneSessionLines [lnHeadC] 1).outLines = [lnHeadC] ∧
    (pruneToBoundary [lnHeadC] 0).outLines = [lnHeadC] ∧
    (¬ ∃ ln ∈ (pruneSessionLines [lnHeadC] 1).outLines, cacheReadOf ln = some 0) ∧
    (¬ ∃ ln ∈ (pruneToBoundary [lnHeadC] 0).outLines, cacheReadOf ln = some 0) := by
  decide

/-- **C4** (amended): if the last cache-bearing record sits at an index
`j ≥ 1` at or after the cut and is not removed by the orphan filter (it is a
message record, or it passes `shouldKeep`), then the output of the pruning
operation contains that record re-serialized with
`cache_read_input_tokens = 0`; when the last cache-bearing record is the
head, the head is emitted unmodified instead. -/
theorem C4_cache_zeroing :
    (∀ (lines : List Line) (keepN : Int) (j : Nat) (ln : Line),
        lastCacheIdx 0 lines = some j → 1 ≤ j → lines[j]? = some ln →
        idxGEb j (cutFromOf lines keepN.toNat) = true →
        (isMsg ln = true ∨
          shouldKeepLine (harvestIds (cutFromOf lines keepN.toNat) 0 lines) ln = true) →
        zeroLine ln ∈ (pruneSessionLines lines keepN).outLines ∧
          cacheReadOf (zeroLine ln) = some 0) ∧
    (∀ (lines : List Line) (b j : Nat) (ln : Line),
        lastCacheIdx 0 lines = some j → 1 ≤ j → lines[j]? = some ln →
        b ≤ j →
        (isMsg ln = true ∨ shouldKeepLine (harvestIds (some b) 0 lines) ln = true) →
        zeroLine ln ∈ (pruneToBoundary lines b).outLines ∧
          cacheReadOf (zeroLine ln) = some 0) := by
  have hsome : ∀ (lines : List Line) (j : Nat) (ln : Line),
      lastCacheIdx 0 lines = some j → lines[j]? = some ln → ln.parsed.isSome = true := by
    intro lines j ln hlast hget
    obtain ⟨k, ln', hk, hkj, hb⟩ := lastCacheIdx_spec lines 0 j hlast
    rw [Nat.zero_add] at hkj
    subst hkj
    rw [hget] at hk
    cases hk
    cases hp : ln.parsed with
    | none => rw [cacheBearing, hp] at hb; exact absurd hb (by simp)
    | some o => simp
  have hzget : ∀ (lines : List Line) (j : Nat) (ln : Line),
      lastCacheIdx 0 lines = some j → lines[j]? = some ln →
      (zeroLastCache lines)[j]? = some (zeroLine ln) := by
    intro lines j ln hlast hget
    unfold zeroLastCache
    rw [hlast, zeroAt_getElem, if_pos (by omega), hget]
    rfl
  constructor
  · intro lines keepN j ln hlast hj hget hge hkeep
    have hz := hzget lines j ln hlast hget
    have htail : (zeroLastCache lines).tail[j - 1]? = some (zeroLine ln) := by
      rw [tail_getElem, show j - 1 + 1 = j by omega]
      exact hz
    refine ⟨pruneSessionLines_mem_of_pass _ _ _ ?_,
      zeroLine_cacheRead ln (hsome lines j ln hlast hget)⟩
    rcases hkeep with hm | hs
    · exact pass3_keep_msg _ _ _ 1 (j - 1) (zeroLine ln) htail
        (by rw [zeroLine_isMsg]; exact hm)
        (by rw [show 1 + (j - 1) = j by omega]; exact hge)
    · by_cases hm : isMsg ln = true
      · exact pass3_keep_msg _ _ _ 1 (j - 1) (zeroLine ln) htail
          (by rw [zeroLine_isMsg]; exact hm)
          (by rw [show 1 + (j - 1) = j by omega]; exact hge)
      · exact pass3_keep_nonmsg _ _ _ 1 (j - 1) (zeroLine ln) htail
          (by rw [zeroLine_isMsg]; simpa using hm)
          (by rw [zeroLine_shouldKeep]; exact hs)
  · intro lines b j ln hlast hj hget hb hkeep
    have hz := hzget lines j ln hlast hget
    have htail : (zeroLastCache lines).tail[j - 1]? = some (zeroLine ln) := by
      rw [tail_getElem, show j - 1 + 1 = j by omega]
      exact hz
    refine ⟨pruneToBoundary_mem_of_pass _ _ _ ?_,
      zeroLine_cacheRead ln (hsome lines j ln hlast hget)⟩
    apply passB_keep _ _ _ 1 (j - 1) (zeroLine ln) htail (by omega)
    rcases hkeep with hm | hs
    · exact Or.inl (by rw [zeroLine_isMsg]; exact hm)
    · by_cases hm : isMsg ln = true
      · exact Or.inl (by rw [zeroLine_isMsg]; exact hm)
      · exact Or.inr ⟨by rw [zeroLine_isMsg]; simpa using hm,
          by rw [zeroLine_shouldKeep]; exact hs⟩

/-- Witness for `C4_cache_zeroing` at a concrete input. -/
theorem C4_cache_zeroing_witness :
    (lastCacheIdx 0 [lnHead, lnUserC 5] = some 1 ∧ (1 : Nat) ≤ 1 ∧
     [lnHead, lnUserC 5][1]? = some (lnUserC 5) ∧
     idxGEb 1 (cutFromOf [lnHead, lnUserC 5] (Int.toNat 3)) = true ∧
     isMsg (lnUserC 5) = true) ∧
    (zeroLine (lnUserC 5) ∈ (pruneSessionLines [lnHead, lnUserC 5] 3).outLines ∧
     cacheReadOf (zeroLine (lnUserC 5)) = some 0) :=
  ⟨⟨by decide, by decide, by decide, by decide, by decide⟩,
    C4_cache_zeroing.1 [lnHead, lnUserC 5] 3 1 (lnUserC 5)
      (by decide) (by decide) (by decide) (by decide) (Or.inl (by decide))⟩

theorem mkGit_retention (total i chars : Nat) (msg : Option String) :
    (mkGit total i chars msg).retentionPercentage = retentionOf total chars := rfl

theorem mkGit_lineNumber (total i chars : Nat) (msg : Option String) :
    (mkGit total i chars msg).lineNumber = i := rfl

theorem isCommitResult_parsed (ln : Line) (h : isCommitResult ln = true) :
    ln.parsed.isSome = true := by
  cases hp : ln.parsed with
  | none => rw [isCommitResult, hp] at h; exact absurd h (by simp)
  | some o => simp

/-- A line that is simultaneously an explicit marker (on its raw bytes) and
a successful-commit `tool_result` (as parsed JSON) — e.g. a bash
`tool_result` whose content embeds the marker substring. -/
def lnDual : Line :=
  ⟨"===INTENT_BOUNDARY=== t",
    some ⟨some "tool_result", .str "insertions", none, some "bash", none, none⟩⟩

/-- A bare explicit-marker diagnostic line. -/
def lnMarker : Line := ⟨"===INTENT_BOUNDARY=== t", none⟩

/-- **C7** (counterexample): one line can yield two boundaries with the same
`line_number` (an explicit marker inside a successful-commit `tool_result`),
so consecutive boundaries need not strictly descend. -/
theorem C7_counterexample :
    ((detectBoundaries [lnDual]).boundaries.map Boundary.lineNumber = [0, 0]) ∧
    ¬ (detectBoundaries [lnDual]).boundaries.Pairwise
        (fun a b => b.lineNumber < a.lineNumber) := by decide

/-- **C7** (amended): the boundary list returned by the analyzer is ordered
by *descending* (non-increasing) `line_number`; the descent is not strict
because two boundaries may share a line. -/
theorem C7_boundary_ordering (lines : List Line) :
    ((detectBoundaries lines).boundaries).Pairwise
      (fun a b => b.lineNumber ≤ a.lineNumber) :=
  sortDesc_pairwise _

/-- **C8** (retention bounds): every emitted boundary has an integer
`retention_percentage` within `[0, 100]`, equal to
`round(100 * (byte_total - offset[line_number]) / byte_total)` with offsets
given by `offset[i+1] = offset[i] + len(lines[i]) + 1`, and the byte total
is positive whenever a boundary exists (no division by zero).  The
hypothesis records that a line which `JSON.parse` accepts is non-empty. -/
theorem C8_retention_bounds (lines : List Line)
    (hwf : ∀ ln ∈ lines, ln.parsed.isSome = true → 1 ≤ ln.raw.length) :
    ∀ bd ∈ (detectBoundaries lines).boundaries,
      0 ≤ bd.retentionPercentage ∧ bd.retentionPercentage ≤ 100 ∧
      0 < (detectBoundaries lines).totalCharacters ∧
      bd.retentionPercentage =
        jsRound (100 * (((detectBoundaries lines).totalCharacters : ℚ) -
          (offsetAt lines bd.lineNumber : ℚ)) /
          ((detectBoundaries lines).totalCharacters : ℚ)) := by
  intro bd hbd
  have htot : (detectBoundaries lines).totalCharacters = joinLen lines := rfl
  have hbd' : bd ∈ intentScan (joinLen lines) 0 0 lines ++
      gitScan (joinLen lines) 0 0 [] lines := by
    have hb : (detectBoundaries lines).boundaries =
        sortDesc (intentScan (joinLen lines) 0 0 lines ++
          gitScan (joinLen lines) 0 0 [] lines) := rfl
    rw [hb, sortDesc_mem] at hbd
    exact hbd
  have main : ∀ k : Nat, bd.retentionPercentage = retentionOf (joinLen lines) (offsetAt lines k) →
      bd.lineNumber = k → offsetAt lines k + 1 ≤ joinLen lines →
      0 ≤ bd.retentionPercentage ∧ bd.retentionPercentage ≤ 100 ∧
      0 < (detectBoundaries lines).totalCharacters ∧
      bd.retentionPercentage =
        jsRound (100 * (((detectBoundaries lines).totalCharacters : ℚ) -
          (offsetAt lines bd.lineNumber : ℚ)) /
          ((detectBoundaries lines).totalCharacters : ℚ)) := by
    intro k hret hline hle
    have hbounds := jsRound_bounds (joinLen lines) (offsetAt lines k) (by omega) (by omega)
    refine ⟨hret ▸ hbounds.1, hret ▸ hbounds.2, by rw [htot]; omega, ?_⟩
    rw [htot, hret, hline]
    unfold retentionOf
    congr 1
    ring
  rcases List.mem_append.mp hbd' with hint | hgit
  · obtain ⟨k, ln, hk, hc, hbdeq⟩ := intentScan_spec lines _ 0 0 bd hint
    simp only [Nat.zero_add] at hbdeq
    have hlen1 : 1 ≤ ln.raw.length := strContains_marker_len ln.raw hc
    have hle := offsetAt_le_joinLen lines k ln hk
    exact main k (by rw [hbdeq, mkIntent_retention]) (by rw [hbdeq, mkIntent_lineNumber])
      (by omega)
  · obtain ⟨k, ln, hk, hc, msg, hbdeq⟩ := gitScan_spec lines _ 0 0 [] bd hgit
    simp only [Nat.zero_add] at hbdeq
    have hlen1 : 1 ≤ ln.raw.length :=
      hwf ln (List.getElem?_mem hk) (isCommitResult_parsed ln hc)
    have hle := offsetAt_le_joinLen lines k ln hk
    exact main k (by rw [hbdeq, mkGit_retention]) (by rw [hbdeq, mkGit_lineNumber])
      (by omega)

/-- Witness for `C8_retention_bounds` at a concrete input with one marker
boundary. -/
theorem C8_retention_bounds_witness :
    (∀ ln ∈ [lnMarker], ln.parsed.isSome = true → 1 ≤ ln.raw.length) ∧
    (detectBoundaries [lnMarker]).boundaries ≠ [] ∧
    (∀ bd ∈ (detectBoundaries [lnMarker]).boundaries,
      0 ≤ bd.retentionPercentage ∧ bd.retentionPercentage ≤ 100 ∧
      0 < (detectBoundaries [lnMarker]).totalCharacters ∧
      bd.retentionPercentage =
        jsRound (100 * (((detectBoundaries [lnMarker]).totalCharacters : ℚ) -
          (offsetAt [lnMarker] bd.lineNumber : ℚ)) /
          ((detectBoundaries [lnMarker]).totalCharacters : ℚ))) :=
  ⟨by decide, by decide, C8_retention_bounds [lnMarker] (by decide)⟩

/-- A run of `pruneSessionLines` on an input that is a fixed point of the
cache rewrite, whose cut lands at `0`, and whose non-message tail lines all
pass the orphan filter, returns the input unchanged. -/
theorem pruneSessionLines_fixed (O : List Line) (keepN : Int)
    (hcut2 : cutFromOf O keepN.toNat = some 0)
    (hz2 : zeroLastCache O = O)
    (hall : ∀ ln ∈ O.tail, isMsg ln = false →
      shouldKeepLine (harvestIds (some 0) 0 O) ln = true) :
    pruneSessionLines O keepN =
      ⟨O, O.tail.countP isMsg, 0, (assistantIdxs 0 O).length⟩ := by
  have hp := pass3_all_keep O.tail (harvestIds (some 0) 0 O) hall 1
  cases O with
  | nil => simp [pruneSessionLines, zeroLastCache, lastCacheIdx, pass3,
      assistantIdxs, cutFromOf] at hcut2 ⊢
  | cons oh ot =>
    simp only [pruneSessionLines, hcut2, hz2]
    simp only [List.tail_cons] at hp ⊢
    rw [hp]
    rfl

/-- The concrete input refuting C6: two surviving cache-bearing records. -/
def C6L : List Line := [lnHead, lnUserC 5, lnUserC 7, lnAsst]

/-- **C6** (counterexample): the first run zeroes only the *last*
cache-bearing record; an earlier cache-bearing record survives in the
output, so the second run zeroes that one too and the outputs differ
(and the second run's `dropped`/`assistantCount` are recomputed on the
pruned input), even though `keepN` is at least the assistant count of the
first output. -/
theorem C6_counterexample :
    (((assistantIdxs 0 (pruneSessionLines C6L 1).outLines).length : Int) ≤ 1) ∧
    pruneSessionLines (pruneSessionLines C6L 1).outLines 1 ≠ pruneSessionLines C6L 1 := by
  decide

/-- **C6** (amended): running keep-by-assistant-count a second time with the
same `keepN` on the output of the first run returns the first run's output
lines and `kept` unchanged, with `dropped = 0` and `assistantCount` equal to
the first output's assistant count — provided `keepN` is at least the first
output's assistant count *and* the first output contains no cache-bearing
record (otherwise the rewriter zeroes a second record). -/
theorem C6_round_trip (lines : List Line) (keepN : Int)
    (hnc : ∀ ln ∈ (pruneSessionLines lines keepN).outLines, cacheBearing ln = false)
    (hk : ((assistantIdxs 0 (pruneSessionLines lines keepN).outLines).length : Int) ≤ keepN) :
    pruneSessionLines (pruneSessionLines lines keepN).outLines keepN =
      ⟨(pruneSessionLines lines keepN).outLines,
       (pruneSessionLines lines keepN).kept, 0,
       (assistantIdxs 0 (pruneSessionLines lines keepN).outLines).length⟩ := by
  have hcut2 : cutFromOf (pruneSessionLines lines keepN).outLines keepN.toNat = some 0 := by
    unfold cutFromOf
    rw [if_neg]
    omega
  have hz2 : zeroLastCache (pruneSessionLines lines keepN).outLines =
      (pruneSessionLines lines keepN).outLines :=
    zeroLastCache_of_all_not _ hnc
  have hall : ∀ ln ∈ (pruneSessionLines lines keepN).outLines.tail, isMsg ln = false →
      shouldKeepLine (harvestIds (some 0) 0 (pruneSessionLines lines keepN).outLines) ln
        = true := by
    intro ln hln _
    apply shouldKeep_of_trId
    intro s hs
    rw [pruneSessionLines_tail] at hln
    have hS1 := pass3_mem_trId _ _ _ 1 ln s hln hs
    have hs1 : s ∈ harvestIds (cutFromOf lines keepN.toNat) 0 lines :=
      List.mem_of_elem_eq_true hS1
    obtain ⟨k, ln0, hk0, hnz, hge, ha, hids⟩ := harvest_spec lines _ 0 s hs1
    simp only [Nat.zero_add] at hnz hge
    obtain ⟨ln1, hk1, hcase⟩ := zeroLastCache_getElem lines k ln0 hk0
    have ha1 : isAssistant ln1 = true := by
      rcases hcase with rfl | rfl
      · exact ha
      · rw [zeroLine_isAssistant]; exact ha
    have hids1 : s ∈ toolUseIds ln1 := by
      rcases hcase with rfl | rfl
      · exact hids
      · rw [zeroLine_toolUseIds]; exact hids
    have htail : (zeroLastCache lines).tail[k - 1]? = some ln1 := by
      rw [tail_getElem, show k - 1 + 1 = k by omega]
      exact hk1
    have hmem1 := pass3_keep_msg _ (cutFromOf lines keepN.toNat)
      (harvestIds (cutFromOf lines keepN.toNat) 0 lines) 1 (k - 1) ln1 htail
      (isMsg_of_assistant ln1 ha1)
      (by rw [show 1 + (k - 1) = k by omega]; exact hge)
    have hm2 : ln1 ∈ (pruneSessionLines lines keepN).outLines.tail := by
      rw [pruneSessionLines_tail]
      exact hmem1
    obtain ⟨k2, hk2⟩ := List.getElem?_of_mem hm2
    have hk2' : (pruneSessionLines lines keepN).outLines[k2 + 1]? = some ln1 := by
      rw [← tail_getElem]
      exact hk2
    have hmemS : s ∈ harvestIds (some 0) 0 (pruneSessionLines lines keepN).outLines :=
      harvest_complete _ (some 0) 0 (k2 + 1) ln1 s hk2' (by omega)
        (by simp [idxGEb]) ha1 hids1
    exact List.elem_eq_true_of_mem hmemS
  have hkept1 : (pruneSessionLines lines keepN).kept =
      (pruneSessionLines lines keepN).outLines.tail.countP isMsg := by
    rw [pruneSessionLines_kept, pass3_kept_eq]
    congr 1
    rw [← pruneSessionLines_tail]
  rw [pruneSessionLines_fixed _ keepN hcut2 hz2 hall, hkept1]

/-- Witness for `C6_round_trip` at a concrete input with no cache counters. -/
theorem C6_round_trip_witness :
    ((∀ ln ∈ (pruneSessionLines [lnHead, lnUser, lnAsst] 2).outLines,
        cacheBearing ln = false) ∧
     ((assistantIdxs 0 (pruneSessionLines [lnHead, lnUser, lnAsst] 2).outLines).length : Int)
       ≤ 2) ∧
    pruneSessionLines (pruneSessionLines [lnHead, lnUser, lnAsst] 2).outLines 2 =
      ⟨(pruneSessionLines [lnHead, lnUser, lnAsst] 2).outLines,
       (pruneSessionLines [lnHead, lnUser, lnAsst] 2).kept, 0,
       (assistantIdxs 0 (pruneSessionLines [lnHead, lnUser, lnAsst] 2).outLines).length⟩ :=
  ⟨⟨by decide, by decide⟩,
    C6_round_trip [lnHead, lnUser, lnAsst] 2 (by decide) (by decide)⟩

theorem pass3_mem_msg (l : List Line) (cut : Option Nat) (S : List String) :
    ∀ (i : Nat) (ln : Line), ln ∈ (pass3 cut S i l).1 → isMsg ln = true →
      ∃ k : Nat, l[k]? = some ln ∧ idxGEb (i + k) cut = true := by
  induction l with
  | nil => intro i ln h; simp [pass3] at h
  | cons x xs ih =>
    intro i ln h hm
    by_cases hmx : isMsg x = true
    · by_cases hcx : idxGEb i cut = true
      · simp only [pass3, hmx, hcx, if_true] at h
        rcases List.mem_cons.mp h with h1 | h2
        · exact ⟨0, by simp [h1], by rw [Nat.add_zero]; exact hcx⟩
        · obtain ⟨k, hk, hge⟩ := ih (i + 1) ln h2 hm
          exact ⟨k + 1, by simpa using hk,
            by rw [show i + (k + 1) = i + 1 + k by omega]; exact hge⟩
      · simp only [pass3, hmx, if_true, hcx, if_false] at h
        obtain ⟨k, hk, hge⟩ := ih (i + 1) ln h hm
        exact ⟨k + 1, by simpa using hk,
          by rw [show i + (k + 1) = i + 1 + k by omega]; exact hge⟩
    · by_cases hsx : shouldKeepLine S x = true
      · simp only [pass3, hmx, if_false, hsx, if_true] at h
        rcases List.mem_cons.mp h with h1 | h2
        · rw [h1] at hm
          rw [hm] at hmx
          exact absurd rfl hmx
        · obtain ⟨k, hk, hge⟩ := ih (i + 1) ln h2 hm
          exact ⟨k + 1, by simpa using hk,
            by rw [show i + (k + 1) = i + 1 + k by omega]; exact hge⟩
      · simp only [pass3, hmx, if_false, hsx] at h
        obtain ⟨k, hk, hge⟩ := ih (i + 1) ln h hm
        exact ⟨k + 1, by simpa using hk,
          by rw [show i + (k + 1) = i + 1 + k by omega]; exact hge⟩

/-- The concrete input refuting C3: an opaque line before the cut. -/
def C3L : List Line := [lnHead, lnOpaque, lnAsst, lnAsst]

/-- **C3** (counterexample): in `pruneSessionLines` the `else` branch of the
output loop has no index guard, so a non-message line *before* the cut (the
opaque line at index 1, with the cut at index 3) is kept, not excluded. -/
theorem C3_counterexample :
    cutFromOf C3L (Int.toNat 1) = some 3 ∧
    lnOpaque ∈ (pruneSessionLines C3L 1).outLines := by decide

/-- **C3** (amended): in keep-from-boundary, every line of the output tail
originates at an index `≥ max 1 b` (so everything before the cut is
excluded) and `dropped` counts exactly the message records at indices
`1 ≤ i < b`.  In keep-by-assistant-count, message records of the output tail
originate only at indices satisfying `idx >= cutFrom`, and `dropped` counts
exactly the message records at indices ≥ 1 failing that comparison — but
non-message lines are kept at *every* index ≥ 1 (subject only to the orphan
filter), not excluded before the cut. -/
theorem C3_pre_cut_exclusion :
    ((∀ (lines : List Line) (b : Nat) (ln : Line),
        ln ∈ (pruneToBoundary lines b).outLines.tail →
        ∃ k : Nat, 1 ≤ k ∧ b ≤ k ∧ (zeroLastCache lines)[k]? = some ln) ∧
      (∀ (lines : List Line) (b : Nat),
        (pruneToBoundary lines b).dropped = droppedCountB b 1 lines.tail)) ∧
    ((∀ (lines : List Line) (keepN : Int) (ln : Line),
        ln ∈ (pruneSessionLines lines keepN).outLines.tail → isMsg ln = true →
        ∃ k : Nat, 1 ≤ k ∧ idxGEb k (cutFromOf lines keepN.toNat) = true ∧
          (zeroLastCache lines)[k]? = some ln) ∧
      (∀ (lines : List Line) (keepN : Int),
        (pruneSessionLines lines keepN).dropped =
          droppedCount (cutFromOf lines keepN.toNat) 1 lines.tail) ∧
      (∀ (lines : List Line) (keepN : Int) (k : Nat) (ln : Line),
        1 ≤ k → (zeroLastCache lines)[k]? = some ln → isMsg ln = false →
        shouldKeepLine (harvestIds (cutFromOf lines keepN.toNat) 0 lines) ln = true →
        ln ∈ (pruneSessionLines lines keepN).outLines)) := by
  refine ⟨⟨?_, ?_⟩, ?_, ?_, ?_⟩
  · intro lines b ln hln
    rw [pruneToBoundary_tail] at hln
    obtain ⟨k, hk, hbk⟩ := passB_mem_origin _ b _ 1 ln hln
    refine ⟨k + 1, by omega, by omega, ?_⟩
    rw [← tail_getElem]
    exact hk
  · intro lines b
    rw [pruneToBoundary_dropped, passB_dropped]
    cases lines with
    | nil => rfl
    | cons h t => exact zeroLastCache_tail_droppedCountB h t b 1
  · intro lines keepN ln hln hm
    rw [pruneSessionLines_tail] at hln
    obtain ⟨k, hk, hge⟩ := pass3_mem_msg _ _ _ 1 ln hln hm
    refine ⟨k + 1, by omega, by rw [show k + 1 = 1 + k by omega]; exact hge, ?_⟩
    rw [← tail_getElem]
    exact hk
  · intro lines keepN
    rw [pruneSessionLines_dropped, pass3_dropped]
    cases lines with
    | nil => rfl
    | cons h t => exact zeroLastCache_tail_droppedCount h t _ 1
  · intro lines keepN k ln hk hget hm hs
    have htail : (zeroLastCache lines).tail[k - 1]? = some ln := by
      rw [tail_getElem, show k - 1 + 1 = k by omega]
      exact hget
    exact pruneSessionLines_mem_of_pass _ _ _
      (pass3_keep_nonmsg _ _ _ 1 (k - 1) ln htail hm hs)

/-- Witness for `C3_pre_cut_exclusion` at a concrete input. -/
theorem C3_pre_cut_exclusion_witness :
    (lnAsst ∈ (pruneToBoundary [lnHead, lnUser, lnAsst] 2).outLines.tail) ∧
    (∃ k : Nat, 1 ≤ k ∧ 2 ≤ k ∧
      (zeroLastCache [lnHead, lnUser, lnAsst])[k]? = some lnAsst) :=
  ⟨by decide,
    C3_pre_cut_exclusion.1.1 [lnHead, lnUser, lnAsst] 2 lnAsst (by decide)⟩

end CCC
